import Mathlib

/-!
Verification development for the `csv` package of the lancet repository: a
bidirectional codec between Go struct values and CSV documents.  The codec
itself (field collection, omitempty column elision, row transcoding) is
embedded from the source.  External collaborators that are not part of the
repository (`strconv`, `time.Time` text marshalling, `encoding/csv`) are
modelled from the spec and marked as such in their doc comments.
-/

set_option autoImplicit false

namespace Lancet

/-! ### Decimal digits -/

/-- One decimal digit rendered as a character (callers only use `d < 10`). -/
def digitChar : Nat → Char
  | 0 => '0'
  | 1 => '1'
  | 2 => '2'
  | 3 => '3'
  | 4 => '4'
  | 5 => '5'
  | 6 => '6'
  | 7 => '7'
  | 8 => '8'
  | _ => '9'

/-- The numeric value of a decimal digit character, if it is one. -/
def digitVal (c : Char) : Option Nat :=
  if '0' ≤ c ∧ c ≤ '9' then some (c.toNat - '0'.toNat) else none

/-- Little-endian decimal digits of `n`; `fuel` bounds the recursion and any
`fuel ≥ n` is enough. -/
def natDigitsRev : Nat → Nat → List Char
  | 0, _ => []
  | fuel + 1, n => if n = 0 then [] else digitChar (n % 10) :: natDigitsRev fuel (n / 10)

/-- Modelled from the spec: `strconv.FormatUint` — canonical decimal, no
grouping, a lone "0" for zero. -/
def formatNat (n : Nat) : String :=
  if n = 0 then "0" else String.mk (natDigitsRev (n + 1) n).reverse

/-- Fold decimal digit characters onto an accumulator; fails on a non-digit. -/
def parseDigitsAux : List Char → Nat → Option Nat
  | [], acc => some acc
  | c :: cs, acc =>
    match digitVal c with
    | some d => parseDigitsAux cs (10 * acc + d)
    | none => none

/-- Modelled from the spec: `strconv.ParseUint` (base 10) — parses canonical
decimal, rejects the empty string, signs and any non-digit. -/
def parseNat (s : String) : Option Nat :=
  if s.data.isEmpty then none else parseDigitsAux s.data 0

/-- Modelled from the spec: `strconv.FormatInt` (base 10). -/
def formatInt (i : Int) : String :=
  if i < 0 then "-" ++ formatNat i.natAbs else formatNat i.natAbs

/-- Strip one optional leading sign, reporting whether it was `-`. -/
def splitSign : List Char → Bool × List Char
  | '-' :: cs => (true, cs)
  | '+' :: cs => (false, cs)
  | cs => (false, cs)

/-- Modelled from the spec: `strconv.ParseInt` (base 10) — an optional sign
followed by decimal digits. -/
def parseInt (s : String) : Option Int :=
  let sc := splitSign s.data
  if sc.2.isEmpty then none
  else (parseDigitsAux sc.2 0).map (fun n => if sc.1 then -(n : Int) else (n : Int))

/-! ### Floating point

Go `float64` values are modelled by their shortest round-trip decimal
representation (the exact form `strconv.FormatFloat(f, 'f', -1, 64)`
produces): a sign, an integer part and a list of fractional digits with no
trailing zero.  `-0` is distinct from `0`, infinities and NaN are outside the
model. -/

structure GoFloat where
  neg : Bool
  ip : Nat
  frac : List Nat
deriving DecidableEq

/-- A well-formed float representation: fractional digits are decimal digits
and carry no trailing zero (the canonical shortest form). -/
def GoFloat.wf (f : GoFloat) : Bool :=
  f.frac.all (fun d => d < 10) && (f.frac.isEmpty || f.frac.getLast? != some 0)

/-- Modelled from the spec: `strconv.FormatFloat(·, 'f', -1, 64)` — shortest
round-trip decimal, no exponent. -/
def formatFloat (f : GoFloat) : String :=
  (if f.neg then "-" else "") ++ formatNat f.ip ++
    (if f.frac.isEmpty then "" else "." ++ String.mk (f.frac.map digitChar))

/-- Remove trailing zeros from a fractional digit list. -/
def stripTrailingZeros (ds : List Nat) : List Nat :=
  (ds.reverse.dropWhile (fun d => d = 0)).reverse

/-- Modelled from the spec: `strconv.ParseFloat` restricted to plain decimal
forms (an optional sign, digits, an optional point and fractional digits);
exponent notation and Inf/NaN spellings are outside the model.  Malformed
text fails. -/
def parseFloat (s : String) : Option GoFloat :=
  let signSplit := splitSign s.data
  let neg := signSplit.1
  let cs := signSplit.2
  let ipChars := cs.takeWhile (fun c => c ≠ '.')
  match cs.dropWhile (fun c => c ≠ '.') with
  | [] =>
    if ipChars.isEmpty then none
    else (parseDigitsAux ipChars 0).map (fun ip => ⟨neg, ip, []⟩)
  | _ :: fracChars =>
    if fracChars.contains '.' then none
    else if ipChars.isEmpty && fracChars.isEmpty then none
    else
      match parseDigitsAux ipChars 0, fracChars.mapM digitVal with
      | some ip, some fds => some ⟨neg, ip, stripTrailingZeros fds⟩
      | _, _ => none

/-! ### Booleans -/

/-- Modelled from the spec: `strconv.FormatBool`. -/
def formatBool (b : Bool) : String :=
  if b then "true" else "false"

/-- Modelled from the spec: `strconv.ParseBool` — the standard boolean literal
spellings. -/
def parseBool (s : String) : Option Bool :=
  if s == "1" || s == "t" || s == "T" || s == "true" || s == "TRUE" || s == "True" then
    some true
  else if s == "0" || s == "f" || s == "F" || s == "false" || s == "FALSE" || s == "False" then
    some false
  else none

/-! ### Date-time -/

/-- Modelled from the spec: a `time.Time` instant.  The zero value is the
zero instant. -/
structure GoTime where
  val : Nat
deriving DecidableEq

/-- Modelled from the spec: `time.Time.MarshalText` — a single fixed,
self-describing, round-trippable textual timestamp form, abstracted here as
an injective token that is never empty.  Encoding never fails under normal
conditions. -/
def timeMarshalText (t : GoTime) : String :=
  "T" ++ formatNat t.val

/-- Modelled from the spec: `time.Time.UnmarshalText` — parses exactly the
texts `timeMarshalText` produces; malformed or empty text fails. -/
def timeUnmarshalText (s : String) : Option GoTime :=
  match s.data with
  | 'T' :: cs => if cs.isEmpty then none else (parseDigitsAux cs 0).map GoTime.mk
  | _ => none

/-! ### Go types and values

A shallow embedding of the Go runtime type and value universe the codec
handles.  A struct type is a list of declared fields, each carrying the
field's declared name, its `csv` struct tag (`""` when absent, as
`reflect.StructTag.Get` reports), an anonymous-embedding flag and its type.
Integers are unbounded (overflow plays no role in the codec). -/

mutual
inductive GoType : Type where
  | int : GoType
  | uint : GoType
  | float : GoType
  | bool : GoType
  | str : GoType
  | time : GoType
  | strct : GoFields → GoType
  | ptr : GoType → GoType
  | slice : GoType → GoType
inductive GoFields : Type where
  | nil : GoFields
  | cons : String → String → Bool → GoType → GoFields → GoFields
end

/-- Run-time Go values.  `ptr none` is a nil pointer. -/
inductive GoValue : Type where
  | int : Int → GoValue
  | uint : Nat → GoValue
  | float : GoFloat → GoValue
  | bool : Bool → GoValue
  | str : String → GoValue
  | time : GoTime → GoValue
  | strct : List GoValue → GoValue
  | ptr : Option GoValue → GoValue
  | slice : List GoValue → GoValue

/-- The declared type of field `i` of a struct's field list. -/
def GoFields.getTy : GoFields → Nat → Option GoType
  | .nil, _ => none
  | .cons _ _ _ ty _, 0 => some ty
  | .cons _ _ _ _ rest, n + 1 => rest.getTy n

/-- Number of declared fields. -/
def GoFields.length : GoFields → Nat
  | .nil => 0
  | .cons _ _ _ _ rest => rest.length + 1

mutual
/-- The zero value of a type (`reflect.New(t).Elem()`). -/
def zeroValue : GoType → GoValue
  | .int => .int 0
  | .uint => .uint 0
  | .float => .float ⟨false, 0, []⟩
  | .bool => .bool false
  | .str => .str ""
  | .time => .time ⟨0⟩
  | .strct fs => .strct (zeroFields fs)
  | .ptr _ => .ptr none
  | .slice _ => .slice []
/-- Zero values of a struct's fields, in declaration order. -/
def zeroFields : GoFields → List GoValue
  | .nil => []
  | .cons _ _ _ ty rest => zeroValue ty :: zeroFields rest
end

mutual
/-- `v` is a run-time value of type `t`.  Float payloads must be in canonical
shortest form (as every `float64` has a unique such form); slice elements are
not checked here (slice-typed fields are unsupported leaves and the top-level
collection is typed elementwise in the theorems). -/
def hasType : GoValue → GoType → Bool
  | .int _, .int => true
  | .uint _, .uint => true
  | .float f, .float => f.wf
  | .bool _, .bool => true
  | .str _, .str => true
  | .time _, .time => true
  | .ptr none, .ptr _ => true
  | .ptr (some w), .ptr e => hasType w e
  | .slice _, .slice _ => true
  | .strct vs, .strct fs => hasTypeFields vs fs
  | _, _ => false
/-- Field values match the declared field types, pointwise. -/
def hasTypeFields : List GoValue → GoFields → Bool
  | [], .nil => true
  | v :: vs, .cons _ _ _ ty rest => hasType v ty && hasTypeFields vs rest
  | _, _ => false
end

/-! ### Field collection (source: `collectFields`, `collectFieldsRecursive`,
`splitTag`, `splitCSVTag`, `trimSpace`) -/

/-- One collected leaf field (source: `fieldInfo`). -/
structure FieldInfo where
  name : String
  indexPath : List Nat
  omitempty : Bool
deriving DecidableEq

/-- Source: `trimSpace` — strips leading and trailing spaces and tabs. -/
def isSpaceTab (c : Char) : Bool := c == ' ' || c == '\t'

/-- Source: `trimSpace`. -/
def trimSpace (s : String) : String :=
  String.mk (((s.data.dropWhile isSpaceTab).reverse.dropWhile isSpaceTab).reverse)

/-- Source: the loop body of `splitCSVTag`. -/
def splitCSVTagAux : List Char → String → List String
  | [], current => [current]
  | c :: cs, current =>
    if c = ',' then current :: splitCSVTagAux cs "" else splitCSVTagAux cs (current.push c)

/-- Source: `splitCSVTag` — split a tag at every comma. -/
def splitCSVTag (s : String) : List String :=
  splitCSVTagAux s.data ""

/-- Source: `splitTag` — comma-split, trim each part, drop empty parts. -/
def splitTag (tag : String) : List String :=
  ((splitCSVTag tag).map trimSpace).filter (fun p => p != "")

/-- Source: lines 51–66 of the encoder — resolve a field's column name and
omitempty flag from its tag.  `none` models the Go runtime panic
(`parts[0]` on an empty slice) for a non-empty tag all of whose
comma-separated tokens trim to empty. -/
def parseFieldTag (fname tag : String) : Option (String × Bool) :=
  if tag == "" then some (fname, false)
  else
    match splitTag tag with
    | [] => none
    | p0 :: restParts => some (p0, restParts.contains "omitempty")

mutual
/-- Source: the field loop of `collectFieldsRecursive`.  `i` is the current
field index, `indexPath` the access path accumulated so far. -/
def collectFieldsGo : GoFields → List Nat → Nat → Option (List FieldInfo)
  | .nil, _, _ => some []
  | .cons fname tag anon ty rest, indexPath, i =>
    let currentPath := indexPath ++ [i]
    match (if anon then collectAnon ty currentPath else none) with
    | some innerRes => do
      let inner ← innerRes
      let tail ← collectFieldsGo rest indexPath (i + 1)
      pure (inner ++ tail)
    | none => do
      let nm ← parseFieldTag fname tag
      let tail ← collectFieldsGo rest indexPath (i + 1)
      pure ({ name := nm.1, indexPath := currentPath, omitempty := nm.2 } :: tail)
/-- Source: lines 38–47 — an anonymous field is recursed into when its type,
after stripping one pointer level, is a struct; otherwise it is a regular
leaf (`none`). -/
def collectAnon : GoType → List Nat → Option (Option (List FieldInfo))
  | .strct fs, path => some (collectFieldsGo fs path 0)
  | .ptr e, path => collectAnonElem e path
  | _, _ => none
/-- The struct test after one pointer dereference. -/
def collectAnonElem : GoType → List Nat → Option (Option (List FieldInfo))
  | .strct fs, path => some (collectFieldsGo fs path 0)
  | _, _ => none
end

/-- Source: `collectFields`. -/
def collectFields (fs : GoFields) : Option (List FieldInfo) :=
  collectFieldsGo fs [] 0

/-! ### Value access along an index path (source: `getFieldByIndexPath`,
`isZeroValue`) -/

/-- Source: `isZeroValue`.  The struct case of the source tests for
`time.Time`, which is the `time` constructor here; any other struct (and any
slice) is never zero. -/
def isZeroValue : GoValue → Bool
  | .bool b => !b
  | .int n => n == 0
  | .uint n => n == 0
  | .float f => f.ip == 0 && f.frac.isEmpty
  | .str s => s == ""
  | .ptr p => p.isNone
  | .time t => t.val == 0
  | .strct _ => false
  | .slice _ => false

/-- Source: the pointer handling inside each step of `getFieldByIndexPath`:
a pointer field is dereferenced, a nil pointer first being allocated to the
zero value of its element type. -/
def derefStep : GoType → GoValue → GoType × GoValue
  | .ptr e, .ptr none => (e, zeroValue e)
  | .ptr e, .ptr (some w) => (e, w)
  | t, v => (t, v)

/-- Source: `getFieldByIndexPath` (read direction).  `none` models a
reflection panic on a malformed path, which cannot arise for paths collected
from the value's own type. -/
def getFieldByIndexPath : GoType → GoValue → List Nat → Option (GoType × GoValue)
  | t, v, [] => some (t, v)
  | t, v, i :: rest =>
    match t, v with
    | .strct fs, .strct vs =>
      match fs.getTy i, vs[i]? with
      | some fty, some fv =>
        let tv := derefStep fty fv
        getFieldByIndexPath tv.1 tv.2 rest
      | _, _ => none
    | _, _ => none

/-- Errors of the embedded codec.  `msg` carries the message of an error the
Go code returns; `conv` is a conversion error propagated from a scalar
parser (`strconv`/`time`, modelled from the spec); `panic` marks a Go
runtime panic. -/
inductive GoErr : Type where
  | msg : String → GoErr
  | conv : String → GoErr
  | panic : String → GoErr
deriving DecidableEq

/-- Re-wrap an updated sub-value into the field slot it came from: through a
pointer field the new value is re-boxed (`field.Set(reflect.New...)`),
otherwise it is stored directly. -/
def wrapBack (fty : GoType) (w : GoValue) : GoValue :=
  match fty with
  | .ptr _ => .ptr (some w)
  | _ => w

/-- Source: `getFieldByIndexPath` as used for writing in `Unmarshal`: walk
the path, allocating nil pointers, and update the final (dereferenced) field
with `upd`, re-wrapping through any pointer on the way back. -/
def modifyFieldByIndexPath (upd : GoValue → Except GoErr GoValue) :
    GoType → GoValue → List Nat → Except GoErr GoValue
  | _, v, [] => upd v
  | t, v, i :: rest =>
    match t, v with
    | .strct fs, .strct vs =>
      match fs.getTy i, vs[i]? with
      | some fty, some fv =>
        let tv := derefStep fty fv
        match modifyFieldByIndexPath upd tv.1 tv.2 rest with
        | .ok newSub => .ok (.strct (vs.set i (wrapBack fty newSub)))
        | .error e => .error e
      | _, _ => .error (.panic "field index out of range")
    | _, _ => .error (.panic "value is not a struct")

/-! ### Marshal (source lines 160–287)

The `encoding/csv` writer is an external collaborator; modelled from the
spec as a lossless renderer, `Marshal` here returns the row/cell matrix it
would render (header row first). -/

/-- Source: the `omitempty` scan of the first pass (lines 206–221): does any
record of the collection hold a non-zero value at `path`?  A nil pointer
element is skipped. -/
def anyNonZeroAt (sTy : GoType) (isPtrElem : Bool) (path : List Nat) :
    List GoValue → Option Bool
  | [] => some false
  | e :: rest =>
    match isPtrElem, e with
    | true, .ptr none => anyNonZeroAt sTy isPtrElem path rest
    | true, .ptr (some w) =>
      match getFieldByIndexPath sTy w path with
      | some tv =>
        if !isZeroValue tv.2 then some true else anyNonZeroAt sTy isPtrElem path rest
      | none => none
    | true, _ => none
    | false, w =>
      match getFieldByIndexPath sTy w path with
      | some tv =>
        if !isZeroValue tv.2 then some true else anyNonZeroAt sTy isPtrElem path rest
      | none => none

/-- Source: the first pass of `Marshal` (lines 197–223): one inclusion flag
per collected field. -/
def computeInclude (sTy : GoType) (isPtrElem : Bool) (elems : List GoValue)
    (fields : List FieldInfo) : Option (List Bool) :=
  fields.mapM (fun fi =>
    if !fi.omitempty then some true else anyNonZeroAt sTy isPtrElem fi.indexPath elems)

/-- Source: the per-field switch of the second pass (lines 250–274) — render
one leaf value as a cell. -/
def encodeField : GoValue → Except GoErr String
  | .int n => .ok (formatInt n)
  | .uint n => .ok (formatNat n)
  | .float f => .ok (formatFloat f)
  | .bool b => .ok (formatBool b)
  | .str s => .ok s
  | .time t => .ok (timeMarshalText t)
  | .strct _ => .error (.msg "unsupported struct type")
  | .ptr _ => .error (.msg "unsupported field type")
  | .slice _ => .error (.msg "unsupported field type")

/-- One cell of the second pass: walk to the leaf of `e'` at the collected
path and render it. -/
def encodeAt (sTy : GoType) (e' : GoValue) (fi : FieldInfo) : Except GoErr String :=
  match getFieldByIndexPath sTy e' fi.indexPath with
  | some tv => encodeField tv.2
  | none => Except.error (GoErr.panic "field index out of range")

/-- Source: the second pass of `Marshal` for one record (lines 237–277):
dereference a pointer element (nil is an error) and render every included
field. -/
def marshalRecord (sTy : GoType) (isPtrElem : Bool) (includedFields : List FieldInfo)
    (e : GoValue) : Except GoErr (List String) := do
  let e' ←
    match isPtrElem, e with
    | true, .ptr none => Except.error (GoErr.msg "slice element is nil")
    | true, .ptr (some w) => Except.ok w
    | true, _ => Except.error (GoErr.panic "value is not a pointer")
    | false, w => Except.ok w
  includedFields.mapM (encodeAt sTy e')

/-- Source: `Marshal` after the pointer strip of the element type (lines
187–192 and onwards): the struct check, the two passes and the row
assembly. -/
def marshalSliceCore (sTy : GoType) (isPtrElem : Bool) (elems : List GoValue) :
    Except GoErr (List (List String)) :=
  match sTy with
  | .strct fsDecl =>
    match collectFields fsDecl with
    | none => .error (.panic "index out of range")
    | some fields =>
      match computeInclude (.strct fsDecl) isPtrElem elems fields with
      | none => .error (.panic "field index out of range")
      | some incl =>
        let includedFields := ((fields.zip incl).filter (fun p => p.2)).map (fun p => p.1)
        let headers := includedFields.map (fun fi => fi.name)
        match elems.mapM (marshalRecord (.strct fsDecl) isPtrElem includedFields) with
        | .ok rows => .ok (headers :: rows)
        | .error e => .error e
  | _ => .error (.msg "element must be a struct")

/-- Source: `Marshal` after shape normalisation — strip one pointer level
off the element type, then run the core. -/
def marshalSlice (elemTy : GoType) (elems : List GoValue) :
    Except GoErr (List (List String)) :=
  match elemTy with
  | .ptr e => marshalSliceCore e true elems
  | e => marshalSliceCore e false elems

/-- Source: `Marshal` (lines 160–287).  The input's runtime type is passed
alongside the value; the untyped-nil-interface case of the source (also
"v is nil") is not representable here. -/
def Marshal (t : GoType) (v : GoValue) : Except GoErr (List (List String)) :=
  match t, v with
  | .ptr _, .ptr none => .error (.msg "v is nil")
  | .slice et, .slice vs => marshalSlice et vs
  | .ptr (.slice et), .ptr (some (.slice vs)) => marshalSlice et vs
  | .ptr (.strct fs), .ptr (some (sv@(.strct _))) => marshalSlice (.strct fs) [sv]
  | .strct fs, sv => marshalSlice (.strct fs) [sv]
  | _, _ => .error (.msg "v must be a struct, a struct pointer or a slice of struct")

/-! ### Unmarshal (source lines 289–409)

The `encoding/csv` reader is the inverse collaborator; `Unmarshal` here
consumes the row/cell matrix it would produce (a zero-length document parses
to zero rows).  Since the source writes through the caller's pointer as it
goes, the model returns the final value of `*v` along with the optional
error. -/

/-- Source: the map-based lookup built on lines 328–331 — Go map insertion
makes the last field with a given name win. -/
def fieldMapLookup (fields : List FieldInfo) (name : String) : Option (List Nat) :=
  (fields.reverse.find? (fun fi => fi.name == name)).map (fun fi => fi.indexPath)

/-- Source: the per-cell kind switch of `Unmarshal` (lines 344–391): decode
one cell into the (dereferenced) field, whose current value supplies the
kind. -/
def decodeCell (value : String) : GoValue → Except GoErr GoValue
  | .int _ =>
    if value == "" then .ok (.int 0)
    else
      match parseInt value with
      | some n => .ok (.int n)
      | none => .error (.conv value)
  | .uint _ =>
    if value == "" then .ok (.uint 0)
    else
      match parseNat value with
      | some n => .ok (.uint n)
      | none => .error (.conv value)
  | .float _ =>
    if value == "" then .ok (.float ⟨false, 0, []⟩)
    else
      match parseFloat value with
      | some f => .ok (.float f)
      | none => .error (.conv value)
  | .bool _ =>
    if value == "" then .ok (.bool false)
    else
      match parseBool value with
      | some b => .ok (.bool b)
      | none => .error (.conv value)
  | .str _ => .ok (.str value)
  | .time _ =>
    match timeUnmarshalText value with
    | some t => .ok (.time t)
    | none => .error (.conv value)
  | .strct _ => .error (.msg "unsupported struct type")
  | .ptr _ => .error (.msg "unsupported field type")
  | .slice _ => .error (.msg "unsupported field type")

/-- Source: the cell loop of one data row (lines 339–393).  The pairs are
`headers.zip record`, matching the loop bound `limit = min(len headers,
len record)`; an unregistered header name skips the cell. -/
def applyCells (sTy : GoType) (fields : List FieldInfo) :
    List (String × String) → GoValue → Except GoErr GoValue
  | [], nv => .ok nv
  | hv :: rest, nv =>
    match fieldMapLookup fields hv.1 with
    | some path =>
      match modifyFieldByIndexPath (decodeCell hv.2) sTy nv path with
      | .ok nv' => applyCells sTy fields rest nv'
      | .error e => .error e
    | none => applyCells sTy fields rest nv

/-- Source: the data-row loop (lines 333–399).  Each successfully decoded
record is appended to the accumulated slice before the next row is read, so
an error in a later row keeps the earlier appends. -/
def unmarshalRows (sTy : GoType) (isPtrElem : Bool) (fields : List FieldInfo)
    (headers : List String) : List (List String) → List GoValue →
    List GoValue × Option GoErr
  | [], acc => (acc, none)
  | record :: rest, acc =>
    match applyCells sTy fields (headers.zip record) (zeroValue sTy) with
    | .ok nv =>
      unmarshalRows sTy isPtrElem fields headers rest
        (acc ++ [if isPtrElem then .ptr (some nv) else nv])
    | .error e => (acc, some e)

/-- Source: the slice-target path of `Unmarshal` after the pointer strip of
the element type (lines 306–313 and the row loop): `target` is returned
unchanged on a pre-loop failure. -/
def unmarshalSliceArm (sTy : GoType) (isPtrElem : Bool) (records : List (List String))
    (target : GoValue) (cur : List GoValue) : GoValue × Option GoErr :=
  match sTy with
  | .strct fsDecl =>
    (match records with
     | [] => (target, some (.msg "no records found"))
     | headers :: dataRows =>
       match collectFields fsDecl with
       | none => (target, some (.panic "index out of range"))
       | some fields =>
         let res := unmarshalRows (.strct fsDecl) isPtrElem fields headers dataRows cur
         (.ptr (some (.slice res.1)), res.2))
  | _ => (target, some (.msg "element must be a struct"))

/-- Source: `Unmarshal` (lines 289–409).  `targetTy`/`target` are the type
and current value of the caller's pointer `v`; the result is the final value
of `v` (the source mutates `*v` in place) paired with the optional error. -/
def Unmarshal (records : List (List String)) (targetTy : GoType) (target : GoValue) :
    GoValue × Option GoErr :=
  match targetTy, target with
  | .ptr (.slice et), .ptr (some (.slice cur)) =>
    (match et with
     | .ptr e => unmarshalSliceArm e true records target cur
     | e => unmarshalSliceArm e false records target cur)
  | .ptr (.strct fsDecl), .ptr (some (.strct _)) =>
    (match records with
     | [] => (target, some (.msg "no records found"))
     | headers :: dataRows =>
       match collectFields fsDecl with
       | none => (target, some (.panic "index out of range"))
       | some fields =>
         match unmarshalRows (.strct fsDecl) false fields headers dataRows [] with
         | (_, some e) => (target, some e)
         | (decoded, none) =>
           match decoded with
           | [] => (target, some (.msg "no data rows found"))
           | first :: _ => (.ptr (some first), none))
  | _, _ => (target, some (.msg "v must be a pointer to a struct or a slice of struct"))

/-! ### Spec-side notions used to state the claims -/

/-- The scalar kinds the spec's §4.3 conversion contract covers. -/
def supportedKind : GoType → Bool
  | .int => true
  | .uint => true
  | .float => true
  | .bool => true
  | .str => true
  | .time => true
  | _ => false

mutual
/-- Every leaf field of a struct type (flattened through embedding exactly
as `collectFieldsRecursive` flattens) has a supported scalar kind. -/
def leavesSupported : GoFields → Bool
  | .nil => true
  | .cons _ _ anon ty rest =>
    match (if anon then leavesSupportedAnon ty else none) with
    | some b => b && leavesSupported rest
    | none => supportedKind ty && leavesSupported rest
/-- Companion of `leavesSupported` on an anonymous field's type. -/
def leavesSupportedAnon : GoType → Option Bool
  | .strct fs => some (leavesSupported fs)
  | .ptr e => leavesSupportedAnonElem e
  | _ => none
/-- Companion of `leavesSupported` after one pointer dereference. -/
def leavesSupportedAnonElem : GoType → Option Bool
  | .strct fs => some (leavesSupported fs)
  | _ => none
end

/-- The spec's `isEmpty` rule, as worded in the omit-if-empty claim: zero
for numeric/boolean kinds, the empty string for text, the zero instant for
date-time (`-0` is numerically zero). -/
def specIsEmpty : GoValue → Bool
  | .int n => n == 0
  | .uint n => n == 0
  | .float f => f.ip == 0 && f.frac.isEmpty
  | .bool b => !b
  | .str s => s == ""
  | .time t => t.val == 0
  | _ => false

/-- Does record `e` of the input collection hold a non-empty value at
`path`?  (A nil pointer record holds no values.) -/
def elemFieldNonZero (sTy : GoType) (isPtrElem : Bool) (path : List Nat) (e : GoValue) : Bool :=
  match isPtrElem, e with
  | true, .ptr none => false
  | true, .ptr (some w) =>
    (match getFieldByIndexPath sTy w path with
     | some tv => !specIsEmpty tv.2
     | none => false)
  | true, _ => false
  | false, w =>
    (match getFieldByIndexPath sTy w path with
     | some tv => !specIsEmpty tv.2
     | none => false)

/-- The claim's inclusion condition for one collected field: not
suppressible, or some record holds a non-empty value there. -/
def fieldIncluded (sTy : GoType) (isPtrElem : Bool) (elems : List GoValue)
    (fi : FieldInfo) : Bool :=
  !fi.omitempty || elems.any (fun e => elemFieldNonZero sTy isPtrElem fi.indexPath e)

/-- Column-name inclusion: the (unique, when names are distinct) field of
that name is included. -/
def inclName (sTy : GoType) (isPtrElem : Bool) (elems : List GoValue)
    (fields : List FieldInfo) (name : String) : Bool :=
  match fields.find? (fun fi => fi.name == name) with
  | some fi => fieldIncluded sTy isPtrElem elems fi
  | none => false

/-- The column name a leaf field resolves to (total variant of
`parseFieldTag`; the panic case is excluded wherever this is used). -/
def tagName (fname tag : String) : String :=
  ((parseFieldTag fname tag).getD (fname, false)).1

mutual
/-- The column names of a struct type's leaf fields, in collection order
(total companion of `collectFields`). -/
def leafNamesF : GoFields → List String
  | .nil => []
  | .cons fname tag anon ty rest =>
    match (if anon then leafNamesAnon ty else none) with
    | some inner => inner ++ leafNamesF rest
    | none => tagName fname tag :: leafNamesF rest
/-- Companion of `leafNamesF` on an anonymous field's type. -/
def leafNamesAnon : GoType → Option (List String)
  | .strct fs => some (leafNamesF fs)
  | .ptr e => leafNamesAnonElem e
  | _ => none
/-- Companion of `leafNamesF` after one pointer dereference. -/
def leafNamesAnonElem : GoType → Option (List String)
  | .strct fs => some (leafNamesF fs)
  | _ => none
end

/-- The field values of a struct value. -/
def structFieldsOf : GoValue → List GoValue
  | .strct vs => vs
  | _ => []

/-- The field values a pointer-embedded sub-record contributes: the pointee's
fields when allocated, the zero fields otherwise (matching `derefStep`'s
allocation). -/
def ptrInnerFields (fs : GoFields) : GoValue → List GoValue
  | .ptr (some (.strct ws)) => ws
  | _ => zeroFields fs

/-- The record a collection element denotes: the pointee for a
pointer-element collection, the element itself otherwise. -/
def stripElem (isPtrElem : Bool) (e : GoValue) : GoValue :=
  match isPtrElem, e with
  | true, .ptr (some w) => w
  | _, _ => e

mutual
/-- The normal form a record decodes back to after a round trip, for a given
column-inclusion predicate `incl`: an included leaf keeps its value, an
elided leaf reverts to zero, and a pointer-embedded sub-record comes back
allocated exactly when one of its leaf columns was emitted. -/
def rebuildFields (incl : String → Bool) : GoFields → List GoValue → List GoValue
  | .nil, _ => []
  | .cons fname tag anon ty rest, vs =>
    let v := vs.headD (zeroValue ty)
    (match (if anon then rebuildAnon incl ty v else none) with
     | some v' => v'
     | none => if incl (tagName fname tag) then v else zeroValue ty) ::
      rebuildFields incl rest vs.tail
/-- Companion of `rebuildFields` on an anonymous field's type. -/
def rebuildAnon (incl : String → Bool) : GoType → GoValue → Option GoValue
  | .strct fs, v => some (.strct (rebuildFields incl fs (structFieldsOf v)))
  | .ptr e, v => rebuildAnonElem incl e v
  | _, _ => none
/-- Companion of `rebuildFields` after one pointer dereference: the
sub-record is reallocated only when one of its columns is present. -/
def rebuildAnonElem (incl : String → Bool) : GoType → GoValue → Option GoValue
  | .strct fs, v =>
    some (if (leafNamesF fs).any incl then
        .ptr (some (.strct (rebuildFields incl fs (ptrInnerFields fs v))))
      else .ptr none)
  | _, _ => none
end

/-- The round-trip normal form of one record of the collection. -/
def rebuildElem (incl : String → Bool) (fs : GoFields) (v : GoValue) : GoValue :=
  .strct (rebuildFields incl fs (structFieldsOf v))

/-- Concatenation of two declared-field lists (used to talk about a field
at an arbitrary declaration position). -/
def GoFields.append : GoFields → GoFields → GoFields
  | .nil, ys => ys
  | .cons n t a ty rest, ys => .cons n t a ty (rest.append ys)

/-- Prefix a collected field's access path. -/
def prefixFi (pre : List Nat) (fi : FieldInfo) : FieldInfo :=
  { fi with indexPath := pre ++ fi.indexPath }

/-- Drop the first `i` declared fields. -/
def GoFields.drop : Nat → GoFields → GoFields
  | 0, fs => fs
  | _ + 1, .nil => .nil
  | n + 1, .cons _ _ _ _ rest => GoFields.drop n rest

/-- The cell a supported leaf value encodes to (total companion of
`encodeField`; junk for unsupported leaves, which the theorems exclude). -/
def encodeLeafCell (v : GoValue) : String :=
  match encodeField v with
  | .ok s => s
  | .error _ => ""

mutual
/-- The (access path, cell) writes one encoded record hands the decoder:
one entry per included leaf column in collection order, the path relative to
the record root (field indices starting at `i`) and the cell the encoder
produces for the record's leaf value. -/
def encodePairs (incl : String → Bool) : GoFields → List GoValue → Nat →
    List (List Nat × String)
  | .nil, _, _ => []
  | .cons fname tag anon ty rest, vs, i =>
    (match (if anon then encodePairsAnon incl ty (vs.headD (zeroValue ty)) else none) with
     | some inner => inner.map (fun pc => (i :: pc.1, pc.2))
     | none =>
       if incl (tagName fname tag) then [([i], encodeLeafCell (vs.headD (zeroValue ty)))]
       else []) ++
      encodePairs incl rest vs.tail (i + 1)
/-- Companion of `encodePairs` on an anonymous field's type. -/
def encodePairsAnon (incl : String → Bool) : GoType → GoValue →
    Option (List (List Nat × String))
  | .strct fs, v => some (encodePairs incl fs (structFieldsOf v) 0)
  | .ptr e, v => encodePairsAnonElem incl e v
  | _, _ => none
/-- Companion of `encodePairs` after one pointer dereference. -/
def encodePairsAnonElem (incl : String → Bool) : GoType → GoValue →
    Option (List (List Nat × String))
  | .strct fs, v => some (encodePairs incl fs (ptrInnerFields fs v) 0)
  | _, _ => none
end

/-- Replay a list of (access path, cell) writes on a record (the path-level
view of `applyCells` once every header name has been resolved). -/
def applyWrites (sTy : GoType) : List (List Nat × String) → GoValue →
    Except GoErr GoValue
  | [], nv => .ok nv
  | pc :: rest, nv =>
    match modifyFieldByIndexPath (decodeCell pc.2) sTy nv pc.1 with
    | .ok nv' => applyWrites sTy rest nv'
    | .error e => .error e

/-! ## Theorems -/

/-! ### Scalar conversion round trips -/

theorem digitVal_digitChar {d : Nat} (h : d < 10) : digitVal (digitChar d) = some d := by
  interval_cases d <;> decide

theorem digitVal_isSome_digitChar {d : Nat} (h : d < 10) :
    (digitVal (digitChar d)).isSome = true := by
  rw [digitVal_digitChar h]; rfl

theorem parseDigitsAux_append (xs ys : List Char) (acc : Nat) :
    parseDigitsAux (xs ++ ys) acc =
      (parseDigitsAux xs acc).bind (fun m => parseDigitsAux ys m) := by
  induction xs generalizing acc with
  | nil => rfl
  | cons c cs ih =>
    cases h : digitVal c with
    | none => simp [parseDigitsAux, h]
    | some d => simp [parseDigitsAux, h, ih]

theorem parseDigitsAux_natDigitsRev (fuel : Nat) :
    ∀ n acc, n ≤ fuel →
      parseDigitsAux (natDigitsRev fuel n).reverse acc =
        some (acc * 10 ^ (natDigitsRev fuel n).length + n) := by
  induction fuel with
  | zero =>
    intro n acc h
    interval_cases n
    simp [natDigitsRev, parseDigitsAux]
  | succ fuel ih =>
    intro n acc h
    by_cases hn : n = 0
    · subst hn; simp [natDigitsRev, parseDigitsAux]
    · have hrec : n / 10 ≤ fuel := by
        have h1 : n / 10 < n := Nat.div_lt_self (Nat.pos_of_ne_zero hn) (by norm_num)
        omega
      have hd : digitVal (digitChar (n % 10)) = some (n % 10) :=
        digitVal_digitChar (Nat.mod_lt n (by norm_num))
      simp only [natDigitsRev, if_neg hn, List.reverse_cons]
      rw [parseDigitsAux_append, ih (n / 10) acc hrec]
      simp only [Option.some_bind, parseDigitsAux, hd, List.length_cons]
      congr 1
      rw [pow_succ, ← mul_assoc]
      generalize acc * 10 ^ (natDigitsRev fuel (n / 10)).length = m
      omega

theorem natDigitsRev_ne_nil {fuel n : Nat} (hn : n ≠ 0) (hf : fuel ≠ 0) :
    natDigitsRev fuel n ≠ [] := by
  cases fuel with
  | zero => exact absurd rfl hf
  | succ fuel => simp [natDigitsRev, hn]

theorem not_isEmpty_of_ne_nil {α : Type} {l : List α} (h : l ≠ []) : ¬l.isEmpty = true := by
  cases l with
  | nil => exact absurd rfl h
  | cons a t => simp [List.isEmpty]

theorem parseNat_formatNat (n : Nat) : parseNat (formatNat n) = some n := by
  by_cases hn : n = 0
  · subst hn; decide
  · have hne : (natDigitsRev (n + 1) n).reverse ≠ [] := by
      simpa using natDigitsRev_ne_nil hn (Nat.succ_ne_zero n)
    unfold formatNat parseNat
    rw [if_neg hn]
    rw [show (String.mk (natDigitsRev (n + 1) n).reverse).data =
        (natDigitsRev (n + 1) n).reverse from rfl]
    rw [if_neg (not_isEmpty_of_ne_nil hne)]
    simpa using parseDigitsAux_natDigitsRev (n + 1) n 0 (Nat.le_succ n)

theorem natDigitsRev_digits (fuel : Nat) :
    ∀ n c, c ∈ natDigitsRev fuel n → (digitVal c).isSome = true := by
  induction fuel with
  | zero => intro n c hc; simp [natDigitsRev] at hc
  | succ fuel ih =>
    intro n c hc
    by_cases hn : n = 0
    · subst hn; simp [natDigitsRev] at hc
    · simp only [natDigitsRev, if_neg hn, List.mem_cons] at hc
      rcases hc with rfl | hc
      · exact digitVal_isSome_digitChar (Nat.mod_lt n (by norm_num))
      · exact ih _ _ hc

theorem formatNat_digits (n : Nat) :
    ∀ c ∈ (formatNat n).data, (digitVal c).isSome = true := by
  intro c hc
  unfold formatNat at hc
  by_cases hn : n = 0
  · rw [if_pos hn] at hc
    simp only [show ("0" : String).data = ['0'] from rfl, List.mem_singleton] at hc
    subst hc; rfl
  · rw [if_neg hn] at hc
    have : c ∈ (natDigitsRev (n + 1) n).reverse := hc
    exact natDigitsRev_digits (n + 1) n c (List.mem_reverse.mp this)

theorem formatNat_data_ne_nil (n : Nat) : (formatNat n).data ≠ [] := by
  unfold formatNat
  by_cases hn : n = 0
  · rw [if_pos hn]; decide
  · rw [if_neg hn]
    simpa using natDigitsRev_ne_nil hn (Nat.succ_ne_zero n)

theorem splitSign_digit {c : Char} (h : (digitVal c).isSome = true) (cs : List Char) :
    splitSign (c :: cs) = (false, c :: cs) := by
  unfold splitSign
  split
  · rename_i heq
    injection heq with h1 _
    subst h1; simp [digitVal] at h
  · rename_i heq
    injection heq with h1 _
    subst h1; simp [digitVal] at h
  · rfl

theorem splitSign_formatNat (n : Nat) (suffix : List Char) :
    splitSign ((formatNat n).data ++ suffix) = (false, (formatNat n).data ++ suffix) := by
  rcases hd : (formatNat n).data with _ | ⟨c, cs⟩
  · exact absurd hd (formatNat_data_ne_nil n)
  · have hc : (digitVal c).isSome = true := by
      apply formatNat_digits n
      rw [hd]; exact List.mem_cons_self c cs
    rw [List.cons_append]
    exact splitSign_digit hc (cs ++ suffix)

theorem parseDigitsAux_formatNat (n : Nat) :
    parseDigitsAux (formatNat n).data 0 = some n := by
  have h := parseNat_formatNat n
  unfold parseNat at h
  rw [if_neg (not_isEmpty_of_ne_nil (formatNat_data_ne_nil n))] at h
  exact h

theorem parseInt_formatInt (i : Int) : parseInt (formatInt i) = some i := by
  unfold formatInt parseInt
  by_cases hi : i < 0
  · rw [if_pos hi]
    have hdata : ("-" ++ formatNat i.natAbs).data = '-' :: (formatNat i.natAbs).data := by
      rw [String.data_append]; rfl
    rw [hdata]
    simp only [splitSign]
    rw [if_neg (not_isEmpty_of_ne_nil (formatNat_data_ne_nil i.natAbs))]
    rw [parseDigitsAux_formatNat]
    simp [abs_of_neg hi]
  · rw [if_neg hi]
    have hs := splitSign_formatNat i.natAbs []
    rw [List.append_nil] at hs
    rw [hs]
    rw [if_neg (not_isEmpty_of_ne_nil (formatNat_data_ne_nil i.natAbs))]
    rw [parseDigitsAux_formatNat]
    simp
    omega

theorem takeWhile_all {p : Char → Bool} :
    ∀ (A : List Char), (∀ c ∈ A, p c = true) → A.takeWhile p = A := by
  intro A hA
  induction A with
  | nil => rfl
  | cons a A ih =>
    rw [List.takeWhile_cons, hA a (List.mem_cons_self a A)]
    simp only [if_true]
    rw [ih (fun c hc => hA c (List.mem_cons_of_mem a hc))]

theorem dropWhile_all {p : Char → Bool} :
    ∀ (A : List Char), (∀ c ∈ A, p c = true) → A.dropWhile p = [] := by
  intro A hA
  induction A with
  | nil => rfl
  | cons a A ih =>
    rw [List.dropWhile_cons, hA a (List.mem_cons_self a A)]
    simp only [if_true]
    exact ih (fun c hc => hA c (List.mem_cons_of_mem a hc))

theorem takeWhile_append_head_neg {p : Char → Bool} {b : Char} (hb : p b = false)
    (B : List Char) :
    ∀ (A : List Char), (∀ c ∈ A, p c = true) → (A ++ b :: B).takeWhile p = A := by
  intro A hA
  induction A with
  | nil => simp [List.takeWhile_cons, hb]
  | cons a A ih =>
    rw [List.cons_append, List.takeWhile_cons, hA a (List.mem_cons_self a A)]
    simp only [if_true]
    rw [ih (fun c hc => hA c (List.mem_cons_of_mem a hc))]

theorem dropWhile_append_head_neg {p : Char → Bool} {b : Char} (hb : p b = false)
    (B : List Char) :
    ∀ (A : List Char), (∀ c ∈ A, p c = true) → (A ++ b :: B).dropWhile p = b :: B := by
  intro A hA
  induction A with
  | nil => simp [List.dropWhile_cons, hb]
  | cons a A ih =>
    rw [List.cons_append, List.dropWhile_cons, hA a (List.mem_cons_self a A)]
    simp only [if_true]
    exact ih (fun c hc => hA c (List.mem_cons_of_mem a hc))

theorem digit_ne_dot {c : Char} (h : (digitVal c).isSome = true) :
    (decide (c ≠ '.')) = true := by
  rcases hc : digitVal c with _ | d
  · rw [hc] at h; exact absurd h (by simp)
  · by_contra hne
    simp only [decide_eq_true_eq, ne_eq, not_not] at hne
    subst hne
    simp [digitVal] at hc

theorem mapM_digitVal_map_digitChar :
    ∀ (ds : List Nat), (∀ d ∈ ds, d < 10) → (ds.map digitChar).mapM digitVal = some ds := by
  intro ds hds
  induction ds with
  | nil => rfl
  | cons d ds ih =>
    rw [List.map_cons, List.mapM_cons, digitVal_digitChar (hds d (List.mem_cons_self d ds))]
    rw [ih (fun e he => hds e (List.mem_cons_of_mem d he))]
    rfl

theorem contains_eq_false_of_forall_ne {l : List Char} {a : Char}
    (h : ∀ c ∈ l, c ≠ a) : l.contains a = false := by
  induction l with
  | nil => rfl
  | cons c cs ih =>
    have hc : (a == c) = false := by
      cases hac : (a == c) with
      | false => rfl
      | true => exact absurd (beq_iff_eq.mp hac).symm (h c (List.mem_cons_self c cs))
    simp only [List.contains_cons, hc, Bool.false_or]
    exact ih (fun d hd => h d (List.mem_cons_of_mem c hd))

theorem stripTrailingZeros_of_wf {ds : List Nat}
    (h : ds.isEmpty = true ∨ ds.getLast? ≠ some 0) : stripTrailingZeros ds = ds := by
  unfold stripTrailingZeros
  rcases hrev : ds.reverse with _ | ⟨a, t⟩
  · have : ds = [] := by simpa using congrArg List.reverse hrev
    subst this; rfl
  · have hds : ds ≠ [] := by
      intro hnil; subst hnil; simp at hrev
    have hlast : ds.getLast? = some a := by
      rw [← List.head?_reverse, hrev]; rfl
    have ha : a ≠ 0 := by
      rcases h with h | h
      · exact absurd h (by simpa [List.isEmpty_iff] using hds)
      · intro h0; subst h0; exact h hlast
    rw [List.dropWhile_cons]
    simp only [decide_eq_true_eq, ha, if_false]
    rw [← hrev, List.reverse_reverse]

theorem parseFloat_formatFloat {f : GoFloat} (hf : f.wf = true) :
    parseFloat (formatFloat f) = some f := by
  have hdig : ∀ d ∈ f.frac, d < 10 := by
    intro d hd
    have := (Bool.and_elim_left hf)
    simpa using List.all_eq_true.mp this d hd
  have hlast : f.frac.isEmpty = true ∨ f.frac.getLast? ≠ some 0 := by
    have := (Bool.and_elim_right hf)
    rcases Bool.or_eq_true_iff.mp this with h | h
    · exact Or.inl h
    · exact Or.inr (by simpa using h)
  have hip : ∀ c ∈ (formatNat f.ip).data, (decide (c ≠ '.')) = true :=
    fun c hc => digit_ne_dot (formatNat_digits f.ip c hc)
  rcases hfr : f.frac with _ | ⟨d0, drest⟩
  · -- no fractional digits: the text is sign ++ digits
    rcases hneg : f.neg with _ | _
    · have hdata : (formatFloat f).data = (formatNat f.ip).data := by
        unfold formatFloat
        rw [hfr, hneg]
        simp [String.data_append]
      unfold parseFloat
      rw [hdata]
      rw [show splitSign (formatNat f.ip).data = (false, (formatNat f.ip).data) by
        simpa using splitSign_formatNat f.ip []]
      simp only []
      rw [takeWhile_all _ hip, dropWhile_all _ hip]
      rw [if_neg (not_isEmpty_of_ne_nil (formatNat_data_ne_nil f.ip))]
      rw [parseDigitsAux_formatNat]
      simp only [Option.map_some]
      cases f
      simp_all
    · have hdata : (formatFloat f).data = '-' :: (formatNat f.ip).data := by
        unfold formatFloat
        rw [hfr, hneg]
        simp [String.data_append]
      unfold parseFloat
      rw [hdata]
      simp only [splitSign]
      rw [takeWhile_all _ hip, dropWhile_all _ hip]
      rw [if_neg (not_isEmpty_of_ne_nil (formatNat_data_ne_nil f.ip))]
      rw [parseDigitsAux_formatNat]
      simp only [Option.map_some]
      cases f
      simp_all
  · -- with fractional digits: the text is sign ++ digits ++ '.' ++ digits
    have hfr' : f.frac ≠ [] := by rw [hfr]; simp
    have hdot : (decide (('.' : Char) ≠ '.')) = false := by decide
    have hfracD : ∀ c ∈ f.frac.map digitChar, (decide (c ≠ '.')) = true := by
      intro c hc
      obtain ⟨d, hd, rfl⟩ := List.mem_map.mp hc
      exact digit_ne_dot (digitVal_isSome_digitChar (hdig d hd))
    have hcontains : (f.frac.map digitChar).contains '.' = false := by
      apply contains_eq_false_of_forall_ne
      intro c hc
      have := hfracD c hc
      simpa using this
    have hfracne : (f.frac.map digitChar).isEmpty = false := by
      rw [hfr]; rfl
    rcases hneg : f.neg with _ | _
    · have hdata : (formatFloat f).data =
          (formatNat f.ip).data ++ '.' :: f.frac.map digitChar := by
        unfold formatFloat
        rw [show f.frac.isEmpty = false by rw [hfr]; rfl, hneg]
        simp [String.data_append]
      unfold parseFloat
      rw [hdata]
      rw [show splitSign ((formatNat f.ip).data ++ '.' :: f.frac.map digitChar) =
          (false, (formatNat f.ip).data ++ '.' :: f.frac.map digitChar) from
        splitSign_formatNat f.ip ('.' :: f.frac.map digitChar)]
      simp only []
      rw [takeWhile_append_head_neg hdot _ _ hip, dropWhile_append_head_neg hdot _ _ hip]
      simp only [hcontains, Bool.false_eq_true, if_false, hfracne, Bool.and_false]
      rw [parseDigitsAux_formatNat, mapM_digitVal_map_digitChar f.frac hdig]
      simp only [stripTrailingZeros_of_wf hlast]
      cases f
      simp_all
    · have hdata : (formatFloat f).data =
          '-' :: ((formatNat f.ip).data ++ '.' :: f.frac.map digitChar) := by
        unfold formatFloat
        rw [show f.frac.isEmpty = false by rw [hfr]; rfl, hneg]
        simp [String.data_append]
      unfold parseFloat
      rw [hdata]
      simp only [splitSign]
      rw [takeWhile_append_head_neg hdot _ _ hip, dropWhile_append_head_neg hdot _ _ hip]
      simp only [hcontains, Bool.false_eq_true, if_false, hfracne, Bool.and_false]
      rw [parseDigitsAux_formatNat, mapM_digitVal_map_digitChar f.frac hdig]
      simp only [stripTrailingZeros_of_wf hlast]
      cases f
      simp_all

theorem parseBool_formatBool (b : Bool) : parseBool (formatBool b) = some b := by
  cases b <;> decide

theorem timeUnmarshalText_timeMarshalText (t : GoTime) :
    timeUnmarshalText (timeMarshalText t) = some t := by
  unfold timeMarshalText timeUnmarshalText
  rw [show ("T" ++ formatNat t.val).data = 'T' :: (formatNat t.val).data by
    rw [String.data_append]; rfl]
  simp only []
  rw [if_neg (not_isEmpty_of_ne_nil (formatNat_data_ne_nil t.val))]
  rw [parseDigitsAux_formatNat]
  rfl

theorem formatNat_ne_empty (n : Nat) : (formatNat n == "") = false := by
  cases h : (formatNat n == "") with
  | false => rfl
  | true =>
    have h' : formatNat n = "" := beq_iff_eq.mp h
    have := formatNat_data_ne_nil n
    rw [h'] at this
    exact absurd rfl this

theorem formatInt_ne_empty (i : Int) : (formatInt i == "") = false := by
  cases h : (formatInt i == "") with
  | false => rfl
  | true =>
    have h' : formatInt i = "" := beq_iff_eq.mp h
    have := parseInt_formatInt i
    rw [h'] at this
    exact Option.noConfusion this

theorem formatFloat_ne_empty {f : GoFloat} (hf : f.wf = true) :
    (formatFloat f == "") = false := by
  cases h : (formatFloat f == "") with
  | false => rfl
  | true =>
    have h' : formatFloat f = "" := beq_iff_eq.mp h
    have := parseFloat_formatFloat hf
    rw [h'] at this
    exact Option.noConfusion this

theorem formatBool_ne_empty (b : Bool) : (formatBool b == "") = false := by
  cases b <;> rfl

/-- Decoding the cell produced for a supported leaf value recovers the value
exactly (the cell switch keys on the zero value of the leaf's kind). -/
theorem decodeCell_encodeField {t : GoType} {v : GoValue} (hs : supportedKind t = true)
    (ht : hasType v t = true) :
    ∃ s, encodeField v = .ok s ∧ decodeCell s (zeroValue t) = .ok v := by
  cases t with
  | int =>
    cases v <;> try exact Bool.noConfusion ht
    case ptr => rename_i o; cases o <;> exact Bool.noConfusion ht
    case int =>
      rename_i n
      refine ⟨formatInt n, rfl, ?_⟩
      simp only [zeroValue]
      unfold decodeCell
      rw [formatInt_ne_empty]
      simp only [Bool.false_eq_true, if_false]
      rw [parseInt_formatInt]
  | uint =>
    cases v <;> try exact Bool.noConfusion ht
    case ptr => rename_i o; cases o <;> exact Bool.noConfusion ht
    case uint =>
      rename_i n
      refine ⟨formatNat n, rfl, ?_⟩
      simp only [zeroValue]
      unfold decodeCell
      rw [formatNat_ne_empty]
      simp only [Bool.false_eq_true, if_false]
      rw [parseNat_formatNat]
  | float =>
    cases v <;> try exact Bool.noConfusion ht
    case ptr => rename_i o; cases o <;> exact Bool.noConfusion ht
    case float =>
      rename_i f
      have hf : f.wf = true := ht
      refine ⟨formatFloat f, rfl, ?_⟩
      simp only [zeroValue]
      unfold decodeCell
      rw [formatFloat_ne_empty hf]
      simp only [Bool.false_eq_true, if_false]
      rw [parseFloat_formatFloat hf]
  | bool =>
    cases v <;> try exact Bool.noConfusion ht
    case ptr => rename_i o; cases o <;> exact Bool.noConfusion ht
    case bool =>
      rename_i b
      refine ⟨formatBool b, rfl, ?_⟩
      simp only [zeroValue]
      unfold decodeCell
      rw [formatBool_ne_empty]
      simp only [Bool.false_eq_true, if_false]
      rw [parseBool_formatBool]
  | str =>
    cases v <;> try exact Bool.noConfusion ht
    case ptr => rename_i o; cases o <;> exact Bool.noConfusion ht
    case str =>
      rename_i s
      exact ⟨s, rfl, rfl⟩
  | time =>
    cases v <;> try exact Bool.noConfusion ht
    case ptr => rename_i o; cases o <;> exact Bool.noConfusion ht
    case time =>
      rename_i tm
      refine ⟨timeMarshalText tm, rfl, ?_⟩
      simp only [zeroValue]
      unfold decodeCell
      rw [timeUnmarshalText_timeMarshalText]
  | strct fs => exact Bool.noConfusion hs
  | ptr e => exact Bool.noConfusion hs
  | slice e => exact Bool.noConfusion hs


/-! ### Row-level lemmas -/

theorem fieldMapLookup_eq_none {fields : List FieldInfo} {h : String}
    (hne : ∀ fi ∈ fields, fi.name ≠ h) : fieldMapLookup fields h = none := by
  unfold fieldMapLookup
  rw [List.find?_eq_none.mpr]
  · rfl
  · intro fi hfi
    have := hne fi (List.mem_reverse.mp hfi)
    simp [this]

theorem applyCells_skip_unknown (sTy : GoType) (fields : List FieldInfo)
    (h cell : String) (hne : ∀ fi ∈ fields, fi.name ≠ h) :
    ∀ (xs ys : List (String × String)) (nv : GoValue),
      applyCells sTy fields (xs ++ (h, cell) :: ys) nv = applyCells sTy fields (xs ++ ys) nv := by
  have hnone : fieldMapLookup fields h = none := fieldMapLookup_eq_none hne
  intro xs
  induction xs with
  | nil =>
    intro ys nv
    simp only [List.nil_append, applyCells, hnone]
  | cons x xs ih =>
    intro ys nv
    rcases x with ⟨xh, xc⟩
    simp only [List.cons_append, applyCells]
    cases hx : fieldMapLookup fields xh with
    | none => exact ih ys nv
    | some path =>
      cases hm : modifyFieldByIndexPath (decodeCell xc) sTy nv path with
      | ok nv' =>
        simp only [hm]
        exact ih ys nv'
      | error e =>
        simp only [hm]

theorem zip_take_left {α β : Type} : ∀ (A : List α) (B : List β),
    A.zip B = (A.take B.length).zip B := by
  intro A
  induction A with
  | nil => intro B; simp
  | cons a A ih =>
    intro B
    cases B with
    | nil => rfl
    | cons b B => simp only [List.zip_cons_cons, List.length_cons, List.take_succ_cons,
        ih B]

theorem zip_take_right {α β : Type} : ∀ (A : List α) (B : List β),
    A.zip B = A.zip (B.take A.length) := by
  intro A
  induction A with
  | nil => intro B; rfl
  | cons a A ih =>
    intro B
    cases B with
    | nil => rfl
    | cons b B => simp only [List.zip_cons_cons, List.length_cons, List.take_succ_cons,
        ih B]

theorem unmarshalRows_extends (sTy : GoType) (isPtrElem : Bool) (fields : List FieldInfo)
    (headers : List String) :
    ∀ (rows : List (List String)) (acc : List GoValue),
      ∃ extra, (unmarshalRows sTy isPtrElem fields headers rows acc).1 = acc ++ extra := by
  intro rows
  induction rows with
  | nil => intro acc; exact ⟨[], by simp [unmarshalRows]⟩
  | cons r rest ih =>
    intro acc
    unfold unmarshalRows
    cases h : applyCells sTy fields (headers.zip r) (zeroValue sTy) with
    | ok nv =>
      obtain ⟨ex, hex⟩ := ih (acc ++ [if isPtrElem then .ptr (some nv) else nv])
      refine ⟨(if isPtrElem then .ptr (some nv) else nv) :: ex, ?_⟩
      rw [hex, List.append_assoc]
      rfl
    | error e => exact ⟨[], by simp⟩

/-! ### Claim theorems (first group) -/

/-- C10: decoding an empty cell into a date-time (`time.Time`) leaf field
fails the whole call with an error, unlike integer, unsigned-integer, float,
boolean and text fields, for which an empty cell decodes to the kind's zero
value without error. -/
theorem C10_empty_cell_datetime_fails :
    (∀ t0 : GoTime, decodeCell "" (.time t0) = .error (.conv "")) ∧
    (∀ n : Int, decodeCell "" (.int n) = .ok (.int 0)) ∧
    (∀ n : Nat, decodeCell "" (.uint n) = .ok (.uint 0)) ∧
    (∀ f : GoFloat, decodeCell "" (.float f) = .ok (.float ⟨false, 0, []⟩)) ∧
    (∀ b : Bool, decodeCell "" (.bool b) = .ok (.bool false)) ∧
    (∀ s0 : String, decodeCell "" (.str s0) = .ok (.str "")) ∧
    Unmarshal [["t"], [""]]
        (.ptr (.slice (.strct (.cons "T" "t" false .time .nil))))
        (.ptr (some (.slice []))) =
      (.ptr (some (.slice [])), some (.conv "")) :=
  ⟨fun _ => rfl, fun _ => rfl, fun _ => rfl, fun _ => rfl, fun _ => rfl, fun _ => rfl, rfl⟩

/-- C8: decoding a cell into an integer, unsigned-integer, float or boolean
leaf: an empty cell yields the kind's zero value without error; a non-empty
unparseable cell fails with a conversion error, which aborts the whole call
(the failing row's record is not appended and later rows are not read). -/
theorem C8_numeric_cell_rules :
    (∀ n : Int, decodeCell "" (.int n) = .ok (.int 0)) ∧
    (∀ n : Nat, decodeCell "" (.uint n) = .ok (.uint 0)) ∧
    (∀ f : GoFloat, decodeCell "" (.float f) = .ok (.float ⟨false, 0, []⟩)) ∧
    (∀ b : Bool, decodeCell "" (.bool b) = .ok (.bool false)) ∧
    (∀ (s : String) (n : Int), s ≠ "" → parseInt s = none →
      decodeCell s (.int n) = .error (.conv s)) ∧
    (∀ (s : String) (n : Nat), s ≠ "" → parseNat s = none →
      decodeCell s (.uint n) = .error (.conv s)) ∧
    (∀ (s : String) (f : GoFloat), s ≠ "" → parseFloat s = none →
      decodeCell s (.float f) = .error (.conv s)) ∧
    (∀ (s : String) (b : Bool), s ≠ "" → parseBool s = none →
      decodeCell s (.bool b) = .error (.conv s)) ∧
    (∀ (sTy : GoType) (isPtrElem : Bool) (fields : List FieldInfo)
        (headers record : List String) (rest : List (List String))
        (acc : List GoValue) (e : GoErr),
      applyCells sTy fields (headers.zip record) (zeroValue sTy) = .error e →
      unmarshalRows sTy isPtrElem fields headers (record :: rest) acc = (acc, some e)) ∧
    Unmarshal [["n"], ["abc"]]
        (.ptr (.slice (.strct (.cons "N" "n" false .int .nil))))
        (.ptr (some (.slice []))) =
      (.ptr (some (.slice [])), some (.conv "abc")) := by
  refine ⟨fun _ => rfl, fun _ => rfl, fun _ => rfl, fun _ => rfl, ?_, ?_, ?_, ?_, ?_, rfl⟩
  · intro s n hs hp
    unfold decodeCell
    rw [show (s == "") = false from beq_eq_false_iff_ne.mpr hs]
    simp only [Bool.false_eq_true, if_false, hp]
  · intro s n hs hp
    unfold decodeCell
    rw [show (s == "") = false from beq_eq_false_iff_ne.mpr hs]
    simp only [Bool.false_eq_true, if_false, hp]
  · intro s f hs hp
    unfold decodeCell
    rw [show (s == "") = false from beq_eq_false_iff_ne.mpr hs]
    simp only [Bool.false_eq_true, if_false, hp]
  · intro s b hs hp
    unfold decodeCell
    rw [show (s == "") = false from beq_eq_false_iff_ne.mpr hs]
    simp only [Bool.false_eq_true, if_false, hp]
  · intro sTy isPtrElem fields headers record rest acc e h
    unfold unmarshalRows
    rw [h]

theorem C8_witness :
    decodeCell "abc" (.int 0) = .error (.conv "abc") :=
  C8_numeric_cell_rules.2.2.2.2.1 "abc" 0 (by decide) (by rfl)

/-- C9: a header column whose name matches no leaf field of the target type
is silently ignored (its cell in every data row is skipped, wherever it
appears in the row), and the decode still succeeds, populating only the
matched columns. -/
theorem C9_extra_columns_ignored :
    (∀ (sTy : GoType) (fields : List FieldInfo) (h cell : String)
        (xs ys : List (String × String)) (nv : GoValue),
      (∀ fi ∈ fields, fi.name ≠ h) →
      applyCells sTy fields (xs ++ (h, cell) :: ys) nv =
        applyCells sTy fields (xs ++ ys) nv) ∧
    Unmarshal [["zz", "n"], ["ignored", "5"]]
        (.ptr (.slice (.strct (.cons "N" "n" false .int .nil))))
        (.ptr (some (.slice []))) =
      (.ptr (some (.slice [.strct [.int 5]])), none) :=
  ⟨fun sTy fields h cell xs ys nv hne => applyCells_skip_unknown sTy fields h cell hne xs ys nv,
   rfl⟩

theorem C9_witness :
    applyCells (.strct .nil) [] [("zz", "x")] (.strct []) =
      applyCells (.strct .nil) [] [] (.strct []) :=
  C9_extra_columns_ignored.1 (.strct .nil) [] "zz" "x" [] [] (.strct [])
    (fun fi hfi => absurd hfi (List.not_mem_nil fi))

/-- C5: one data row is decoded through `headers.zip record`, so a row with
fewer cells than the header uses only the covered header prefix (the
uncovered trailing fields of the fresh zero record are never written and an
entirely uncovered row decodes to the zero record without error), and a row
with more cells than the header ignores the extra trailing cells; neither
length mismatch is an error by itself. -/
theorem C5_row_length_tolerance :
    (∀ (sTy : GoType) (fields : List FieldInfo) (headers record : List String) (nv : GoValue),
      applyCells sTy fields (headers.zip record) nv =
        applyCells sTy fields ((headers.take record.length).zip record) nv) ∧
    (∀ (sTy : GoType) (fields : List FieldInfo) (headers record : List String) (nv : GoValue),
      applyCells sTy fields (headers.zip record) nv =
        applyCells sTy fields (headers.zip (record.take headers.length)) nv) ∧
    (∀ (sTy : GoType) (fields : List FieldInfo) (headers : List String),
      applyCells sTy fields (headers.zip ([] : List String)) (zeroValue sTy) =
        .ok (zeroValue sTy)) ∧
    Unmarshal [["a", "n"], ["x"]]
        (.ptr (.slice (.strct (.cons "A" "a" false .str (.cons "N" "n" false .int .nil)))))
        (.ptr (some (.slice []))) =
      (.ptr (some (.slice [.strct [.str "x", .int 0]])), none) ∧
    Unmarshal [["a", "n"], ["x", "5", "zzz"]]
        (.ptr (.slice (.strct (.cons "A" "a" false .str (.cons "N" "n" false .int .nil)))))
        (.ptr (some (.slice []))) =
      (.ptr (some (.slice [.strct [.str "x", .int 5]])), none) := by
  refine ⟨?_, ?_, ?_, rfl, rfl⟩
  · intro sTy fields headers record nv
    rw [← zip_take_left]
  · intro sTy fields headers record nv
    rw [← zip_take_right]
  · intro sTy fields headers
    rw [List.zip_nil_right]
    rfl

/-- C7: decoding zero rows fails for every target shape; a header-only
document into a single-record target fails with the no-data-rows error; a
header-only document into a sequence target succeeds and leaves the
sequence as it was (so an empty sequence stays empty); for the valid target
shapes the zero-row error is the no-records-found error. -/
theorem C7_empty_document_rules :
    (∀ (tTy : GoType) (tgt : GoValue), (Unmarshal [] tTy tgt).2.isSome = true) ∧
    (∀ (fs : GoFields) (vs : List GoValue),
      Unmarshal [] (.ptr (.strct fs)) (.ptr (some (.strct vs))) =
        (.ptr (some (.strct vs)), some (.msg "no records found"))) ∧
    (∀ (fs : GoFields) (cur : List GoValue),
      Unmarshal [] (.ptr (.slice (.strct fs))) (.ptr (some (.slice cur))) =
        (.ptr (some (.slice cur)), some (.msg "no records found"))) ∧
    (∀ (fs : GoFields) (vs : List GoValue) (headers : List String)
        (fields : List FieldInfo), collectFields fs = some fields →
      Unmarshal [headers] (.ptr (.strct fs)) (.ptr (some (.strct vs))) =
        (.ptr (some (.strct vs)), some (.msg "no data rows found"))) ∧
    (∀ (fs : GoFields) (cur : List GoValue) (headers : List String)
        (fields : List FieldInfo), collectFields fs = some fields →
      Unmarshal [headers] (.ptr (.slice (.strct fs))) (.ptr (some (.slice cur))) =
        (.ptr (some (.slice cur)), none)) ∧
    (∀ (fs : GoFields) (cur : List GoValue) (headers : List String)
        (fields : List FieldInfo), collectFields fs = some fields →
      Unmarshal [headers] (.ptr (.slice (.ptr (.strct fs)))) (.ptr (some (.slice cur))) =
        (.ptr (some (.slice cur)), none)) := by
  refine ⟨?_, fun _ _ => rfl, fun _ _ => rfl, ?_, ?_, ?_⟩
  · intro tTy tgt
    unfold Unmarshal
    cases tTy <;> try rfl
    rename_i pt
    cases pt <;> try rfl
    case strct fs =>
      cases tgt <;> try rfl
      rename_i o
      cases o <;> try rfl
      rename_i w
      cases w <;> rfl
    case slice et =>
      cases tgt <;> try rfl
      rename_i o
      cases o <;> try rfl
      rename_i w
      cases w <;> try rfl
      rename_i cur
      cases et <;> try rfl
      rename_i e
      cases e <;> rfl
  · intro fs vs headers fields hc
    simp only [Unmarshal, hc, unmarshalRows]
  · intro fs cur headers fields hc
    simp only [Unmarshal, unmarshalSliceArm, hc, unmarshalRows]
  · intro fs cur headers fields hc
    simp only [Unmarshal, unmarshalSliceArm, hc, unmarshalRows]

theorem C7_witness :
    Unmarshal [["a"]] (.ptr (.strct (.cons "A" "a" false .str .nil)))
        (.ptr (some (.strct [.str "q"]))) =
      (.ptr (some (.strct [.str "q"])), some (.msg "no data rows found")) :=
  C7_empty_document_rules.2.2.2.1 (.cons "A" "a" false .str .nil) [.str "q"] ["a"]
    [{ name := "a", indexPath := [0], omitempty := false }] rfl


/-! ### Field collection versus leaf names -/

theorem collectAnon_eq_none {ty : GoType} {path : List Nat}
    (h : collectAnon ty path = none) : leafNamesAnon ty = none := by
  cases ty with
  | ptr e =>
    cases e <;> first
      | rfl
      | exact Option.noConfusion (h : (none : Option (Option (List FieldInfo))) = none) -- unreachable
      | (exact absurd h (by simp [collectAnon, collectAnonElem]))
  | strct fs => exact absurd h (by simp [collectAnon])
  | _ => rfl

mutual
theorem collectFieldsGo_names : ∀ (fs : GoFields) (pre : List Nat) (i : Nat)
    (l : List FieldInfo), collectFieldsGo fs pre i = some l →
    l.map (fun fi => fi.name) = leafNamesF fs
  | .nil, pre, i, l, h => by
    simp only [collectFieldsGo, Option.some_inj] at h
    subst h
    rfl
  | .cons fname tag anon ty rest, pre, i, l, h => by
    simp only [collectFieldsGo] at h
    cases hb : (if anon then collectAnon ty (pre ++ [i]) else none) with
    | some innerRes =>
      rw [hb] at h
      cases innerRes with
      | none => exact Option.noConfusion h
      | some inner =>
        cases htail : collectFieldsGo rest pre (i + 1) with
        | none => rw [htail] at h; exact Option.noConfusion h
        | some tail =>
          rw [htail] at h
          simp at h
          subst h
          have hanon : anon = true := by
            cases anon with
            | true => rfl
            | false => exact Option.noConfusion hb
          subst hanon
          simp only [if_true] at hb
          obtain ⟨ns, hns, hmap⟩ := collectAnon_names ty (pre ++ [i]) (some inner) hb
          simp only [leafNamesF, if_true, hns]
          rw [List.map_append, hmap inner rfl,
            collectFieldsGo_names rest pre (i + 1) tail htail]
    | none =>
      rw [hb] at h
      cases hnm : parseFieldTag fname tag with
      | none => rw [hnm] at h; exact Option.noConfusion h
      | some nm =>
        rw [hnm] at h
        cases htail : collectFieldsGo rest pre (i + 1) with
        | none => rw [htail] at h; exact Option.noConfusion h
        | some tail =>
          rw [htail] at h
          simp at h
          subst h
          have hnone : (if anon then leafNamesAnon ty else none) = none := by
            cases anon with
            | false => rfl
            | true =>
              simp only [if_true] at hb ⊢
              exact collectAnon_eq_none hb
          simp only [leafNamesF, hnone]
          rw [List.map_cons, collectFieldsGo_names rest pre (i + 1) tail htail]
          have htn : tagName fname tag = nm.1 := by
            unfold tagName
            rw [hnm]
            rfl
          rw [htn]
theorem collectAnon_names : ∀ (ty : GoType) (path : List Nat)
    (r : Option (List FieldInfo)), collectAnon ty path = some r →
    ∃ ns, leafNamesAnon ty = some ns ∧
      ∀ inner, r = some inner → inner.map (fun fi => fi.name) = ns
  | .strct fs, path, r, h => by
    simp only [collectAnon, Option.some_inj] at h
    exact ⟨leafNamesF fs, rfl, fun inner hinner => by
      subst h
      exact collectFieldsGo_names fs path 0 inner hinner⟩
  | .ptr e, path, r, h => by
    simp only [collectAnon] at h
    obtain ⟨ns, hns, hmap⟩ := collectAnonElem_names e path r h
    exact ⟨ns, hns, hmap⟩
  | .int, _, _, h => Option.noConfusion h
  | .uint, _, _, h => Option.noConfusion h
  | .float, _, _, h => Option.noConfusion h
  | .bool, _, _, h => Option.noConfusion h
  | .str, _, _, h => Option.noConfusion h
  | .time, _, _, h => Option.noConfusion h
  | .slice _, _, _, h => Option.noConfusion h
theorem collectAnonElem_names : ∀ (ty : GoType) (path : List Nat)
    (r : Option (List FieldInfo)), collectAnonElem ty path = some r →
    ∃ ns, leafNamesAnonElem ty = some ns ∧
      ∀ inner, r = some inner → inner.map (fun fi => fi.name) = ns
  | .strct fs, path, r, h => by
    simp only [collectAnonElem, Option.some_inj] at h
    exact ⟨leafNamesF fs, rfl, fun inner hinner => by
      subst h
      exact collectFieldsGo_names fs path 0 inner hinner⟩
  | .int, _, _, h => Option.noConfusion h
  | .uint, _, _, h => Option.noConfusion h
  | .float, _, _, h => Option.noConfusion h
  | .bool, _, _, h => Option.noConfusion h
  | .str, _, _, h => Option.noConfusion h
  | .time, _, _, h => Option.noConfusion h
  | .ptr _, _, _, h => Option.noConfusion h
  | .slice _, _, _, h => Option.noConfusion h
end

/-! ### Path shifting in field collection -/

theorem prefixFi_comp (pre q : List Nat) (fi : FieldInfo) :
    prefixFi pre (prefixFi q fi) = prefixFi (pre ++ q) fi := by
  unfold prefixFi
  simp [List.append_assoc]

mutual
theorem collectFieldsGo_shift : ∀ (fs : GoFields) (pre : List Nat) (i : Nat),
    collectFieldsGo fs pre i =
      (collectFieldsGo fs [] i).map (List.map (prefixFi pre))
  | .nil, pre, i => by simp [collectFieldsGo]
  | .cons fname tag anon ty rest, pre, i => by
    have hrest := collectFieldsGo_shift rest pre (i + 1)
    have hdisc : (if anon then collectAnon ty (pre ++ [i]) else none) =
        (if anon then collectAnon ty ([] ++ [i]) else none).map
          (Option.map (List.map (prefixFi pre))) := by
      cases anon with
      | false => rfl
      | true =>
        simp only [if_true]
        rw [collectAnon_shift ty (pre ++ [i]), collectAnon_shift ty ([] ++ [i])]
        cases collectAnon ty [] with
        | none => rfl
        | some r =>
          cases r with
          | none => rfl
          | some inner0 =>
            have hfun : prefixFi pre ∘ prefixFi [i] = prefixFi (pre ++ [i]) := by
              funext fi
              exact prefixFi_comp pre [i] fi
            simp [List.map_map, hfun]
    simp only [collectFieldsGo, hdisc]
    cases hbase : (if anon then collectAnon ty ([] ++ [i]) else none) with
    | none =>
      simp only [Option.map_none]
      cases hnm : parseFieldTag fname tag with
      | none => rw [hrest]; cases collectFieldsGo rest [] (i + 1) <;> rfl
      | some nm =>
        rw [hrest]
        cases collectFieldsGo rest [] (i + 1) with
        | none => rfl
        | some tail0 =>
          simp [prefixFi]
    | some r =>
      simp only [Option.map_some]
      cases r with
      | none => rfl
      | some inner0 =>
        rw [hrest]
        cases collectFieldsGo rest [] (i + 1) with
        | none => rfl
        | some tail0 =>
          simp
theorem collectAnon_shift : ∀ (ty : GoType) (path : List Nat),
    collectAnon ty path =
      (collectAnon ty []).map (Option.map (List.map (prefixFi path)))
  | .strct fs, path => by
    simp only [collectAnon, Option.map_some]
    rw [collectFieldsGo_shift fs path 0]
    rfl
  | .ptr e, path => by
    simp only [collectAnon]
    exact collectAnonElem_shift e path
  | .int, _ => rfl
  | .uint, _ => rfl
  | .float, _ => rfl
  | .bool, _ => rfl
  | .str, _ => rfl
  | .time, _ => rfl
  | .slice _, _ => rfl
theorem collectAnonElem_shift : ∀ (ty : GoType) (path : List Nat),
    collectAnonElem ty path =
      (collectAnonElem ty []).map (Option.map (List.map (prefixFi path)))
  | .strct fs, path => by
    simp only [collectAnonElem, Option.map_some]
    rw [collectFieldsGo_shift fs path 0]
    rfl
  | .int, _ => rfl
  | .uint, _ => rfl
  | .float, _ => rfl
  | .bool, _ => rfl
  | .str, _ => rfl
  | .time, _ => rfl
  | .ptr _, _ => rfl
  | .slice _, _ => rfl
end

theorem collectFieldsGo_append : ∀ (xs ys : GoFields) (pre : List Nat) (i : Nat),
    collectFieldsGo (xs.append ys) pre i = do
      let a ← collectFieldsGo xs pre i
      let b ← collectFieldsGo ys pre (i + xs.length)
      pure (a ++ b)
  | .nil, ys, pre, i => by
    simp [GoFields.append, collectFieldsGo, GoFields.length]
  | .cons fname tag anon ty rest, ys, pre, i => by
    have ih := collectFieldsGo_append rest ys pre (i + 1)
    have hlen : i + (GoFields.cons fname tag anon ty rest).length =
        (i + 1) + rest.length := by
      simp only [GoFields.length]
      omega
    simp only [GoFields.append, collectFieldsGo, hlen, ih]
    cases (if anon then collectAnon ty (pre ++ [i]) else none) with
    | some innerRes =>
      cases innerRes with
      | none => rfl
      | some inner =>
        cases collectFieldsGo rest pre (i + 1) with
        | none => rfl
        | some a =>
          cases collectFieldsGo ys pre (i + 1 + rest.length) with
          | none => rfl
          | some b => simp [List.append_assoc]
    | none =>
      cases parseFieldTag fname tag with
      | none => rfl
      | some nm =>
        cases collectFieldsGo rest pre (i + 1) with
        | none => rfl
        | some a =>
          cases collectFieldsGo ys pre (i + 1 + rest.length) with
          | none => rfl
          | some b => simp

/-! ### Typing and walking lemmas -/

mutual
theorem hasType_zeroValue : ∀ t : GoType, hasType (zeroValue t) t = true
  | .int => rfl
  | .uint => rfl
  | .float => rfl
  | .bool => rfl
  | .str => rfl
  | .time => rfl
  | .strct fs => hasTypeFields_zeroFields fs
  | .ptr _ => rfl
  | .slice _ => rfl
theorem hasTypeFields_zeroFields : ∀ fs : GoFields,
    hasTypeFields (zeroFields fs) fs = true
  | .nil => rfl
  | .cons _ _ _ ty rest => by
    simp only [zeroFields, hasTypeFields, Bool.and_eq_true]
    exact ⟨hasType_zeroValue ty, hasTypeFields_zeroFields rest⟩
end

theorem hasTypeFields_getTy : ∀ (full : GoFields) (vs : List GoValue) (i : Nat)
    (ty : GoType), hasTypeFields vs full = true → full.getTy i = some ty →
    ∃ v, vs[i]? = some v ∧ hasType v ty = true
  | .nil, vs, i, ty, _, hg => Option.noConfusion hg
  | .cons _ _ _ fty rest, vs, i, ty, ht, hg => by
    cases vs with
    | nil => exact Bool.noConfusion ht
    | cons v vs =>
      simp only [hasTypeFields, Bool.and_eq_true] at ht
      cases i with
      | zero =>
        simp only [GoFields.getTy, Option.some_inj] at hg
        subst hg
        exact ⟨v, by simp, ht.1⟩
      | succ i =>
        simp only [GoFields.getTy] at hg
        obtain ⟨w, hw, hwt⟩ := hasTypeFields_getTy rest vs i ty ht.2 hg
        exact ⟨w, by simpa using hw, hwt⟩

theorem drop_eq_cons : ∀ (full : GoFields) (i : Nat) (n t : String) (a : Bool)
    (ty : GoType) (rest : GoFields),
    GoFields.drop i full = .cons n t a ty rest →
    full.getTy i = some ty ∧ GoFields.drop (i + 1) full = rest
  | .nil, 0, _, _, _, _, _, h => GoFields.noConfusion h
  | .nil, i + 1, _, _, _, _, _, h => GoFields.noConfusion h
  | .cons n0 t0 a0 ty0 rest0, 0, n, t, a, ty, rest, h => by
    simp only [GoFields.drop] at h
    cases h
    exact ⟨rfl, rfl⟩
  | .cons n0 t0 a0 ty0 rest0, i + 1, n, t, a, ty, rest, h => by
    simp only [GoFields.drop] at h
    obtain ⟨h1, h2⟩ := drop_eq_cons rest0 i n t a ty rest h
    exact ⟨h1, h2⟩

theorem derefStep_of_supported {t : GoType} (hs : supportedKind t = true) (v : GoValue) :
    derefStep t v = (t, v) := by
  cases t <;> first | rfl | exact Bool.noConfusion hs

theorem isZeroValue_eq_specIsEmpty {t : GoType} {v : GoValue}
    (hs : supportedKind t = true) (ht : hasType v t = true) :
    isZeroValue v = specIsEmpty v := by
  cases t <;> try exact Bool.noConfusion hs
  all_goals
    cases v <;> try exact Bool.noConfusion ht
  all_goals try rfl
  all_goals (rename_i o; cases o <;> exact Bool.noConfusion ht)

theorem collectAnon_none_sup {ty : GoType} {path : List Nat}
    (h : collectAnon ty path = none) : leavesSupportedAnon ty = none := by
  cases ty with
  | ptr e =>
    cases e <;> first
      | rfl
      | (exact absurd h (by simp [collectAnon, collectAnonElem]))
  | strct fs => exact absurd h (by simp [collectAnon])
  | _ => rfl

theorem collectAnon_some_sup {ty : GoType} {path : List Nat}
    {r : Option (List FieldInfo)} (h : collectAnon ty path = some r) :
    ∃ b, leavesSupportedAnon ty = some b := by
  cases ty with
  | ptr e =>
    cases e <;> simp_all [collectAnon, collectAnonElem, leavesSupportedAnon,
      leavesSupportedAnonElem]
  | strct fs => exact ⟨leavesSupported fs, rfl⟩
  | _ => exact Option.noConfusion h

mutual
theorem walkFields : ∀ (sub : GoFields) (i : Nat) (l : List FieldInfo),
    collectFieldsGo sub [] i = some l → leavesSupported sub = true →
    ∀ fi ∈ l, ∀ (full : GoFields) (vs : List GoValue),
      hasTypeFields vs full = true → GoFields.drop i full = sub →
      ∃ t' v', getFieldByIndexPath (.strct full) (.strct vs) fi.indexPath =
          some (t', v') ∧ supportedKind t' = true ∧ hasType v' t' = true
  | .nil, i, l, h, _, fi, hfi, _, _, _, _ => by
    simp only [collectFieldsGo, Option.some_inj] at h
    subst h
    exact absurd hfi (List.not_mem_nil fi)
  | .cons fname tag anon ty rest, i, l, h, hsup, fi, hfi, full, vs, hvt, hdrop => by
    obtain ⟨hgetTy, hdrop2⟩ := drop_eq_cons full i fname tag anon ty rest hdrop
    obtain ⟨vi, hvi, hvit⟩ := hasTypeFields_getTy full vs i ty hvt hgetTy
    simp only [collectFieldsGo] at h
    cases hb : (if anon then collectAnon ty ([] ++ [i]) else none) with
    | some innerRes =>
      rw [hb] at h
      cases innerRes with
      | none => exact Option.noConfusion h
      | some inner =>
        cases htail : collectFieldsGo rest [] (i + 1) with
        | none => rw [htail] at h; exact Option.noConfusion h
        | some tail =>
          rw [htail] at h
          simp at h
          subst h
          have hanon : anon = true := by
            cases anon
            · exact Option.noConfusion hb
            · rfl
          subst hanon
          simp only [if_true] at hb
          obtain ⟨b, hsupa⟩ := collectAnon_some_sup hb
          have hsup' : b = true ∧ leavesSupported rest = true := by
            simp only [leavesSupported, if_true, hsupa, Bool.and_eq_true] at hsup
            exact hsup
          rcases List.mem_append.mp hfi with hfim | hfim
          · -- fi comes from the embedded sub-record
            have hshift := collectAnon_shift ty ([] ++ [i])
            rw [hb] at hshift
            cases hbase : collectAnon ty [] with
            | none => rw [hbase] at hshift; exact Option.noConfusion hshift
            | some r0 =>
              rw [hbase] at hshift
              cases r0 with
              | none => simp at hshift
              | some inner0 =>
                simp at hshift
                subst hshift
                obtain ⟨fj, hfj, rfl⟩ := List.mem_map.mp hfim
                obtain ⟨t', v', hwalk, hs', ht'⟩ :=
                  walkAnon ty inner0 hbase (hsup'.1 ▸ hsupa) fj hfj vi hvit
                refine ⟨t', v', ?_, hs', ht'⟩
                have hpath : (prefixFi [i] fj).indexPath = i :: fj.indexPath := by
                  simp [prefixFi]
                rw [hpath]
                simp only [getFieldByIndexPath, hgetTy, hvi]
                exact hwalk
          · exact walkFields rest (i + 1) tail htail hsup'.2 fi hfim full vs hvt hdrop2
    | none =>
      rw [hb] at h
      cases hnm : parseFieldTag fname tag with
      | none => rw [hnm] at h; exact Option.noConfusion h
      | some nm =>
        rw [hnm] at h
        cases htail : collectFieldsGo rest [] (i + 1) with
        | none => rw [htail] at h; exact Option.noConfusion h
        | some tail =>
          rw [htail] at h
          simp at h
          subst h
          have hnosub : (if anon then leavesSupportedAnon ty else none) = none := by
            cases anon
            · rfl
            · simp only [if_true] at hb ⊢
              exact collectAnon_none_sup hb
          have hsup' : supportedKind ty = true ∧ leavesSupported rest = true := by
            simp only [leavesSupported, hnosub, Bool.and_eq_true] at hsup
            exact hsup
          rcases List.mem_cons.mp hfi with hfieq | hfim
          · -- fi is this leaf field
            subst hfieq
            refine ⟨ty, vi, ?_, hsup'.1, hvit⟩
            show getFieldByIndexPath (.strct full) (.strct vs) ([] ++ [i]) = _
            simp only [List.nil_append, getFieldByIndexPath, hgetTy, hvi]
            rw [derefStep_of_supported hsup'.1]
          · exact walkFields rest (i + 1) tail htail hsup'.2 fi hfim full vs hvt hdrop2
theorem walkAnon : ∀ (ty : GoType) (innerL : List FieldInfo),
    collectAnon ty [] = some (some innerL) → leavesSupportedAnon ty = some true →
    ∀ fj ∈ innerL, ∀ v, hasType v ty = true →
      ∃ t' v', getFieldByIndexPath (derefStep ty v).1 (derefStep ty v).2 fj.indexPath =
          some (t', v') ∧ supportedKind t' = true ∧ hasType v' t' = true
  | .strct fs', innerL, hc, hsup, fj, hfj, v, hv => by
    simp only [collectAnon, Option.some_inj] at hc
    simp only [leavesSupportedAnon, Option.some_inj] at hsup
    cases v <;> try exact Bool.noConfusion hv
    case ptr o => cases o <;> exact Bool.noConfusion hv
    case strct ws => exact walkFields fs' 0 innerL hc hsup fj hfj fs' ws hv rfl
  | .ptr e, innerL, hc, hsup, fj, hfj, v, hv => by
    simp only [collectAnon] at hc
    simp only [leavesSupportedAnon] at hsup
    cases e <;> try exact Option.noConfusion hc
    case strct fs' =>
      simp only [collectAnonElem, Option.some_inj] at hc
      simp only [leavesSupportedAnonElem, Option.some_inj] at hsup
      cases v <;> try exact Bool.noConfusion hv
      case ptr o =>
        cases o with
        | none =>
          exact walkFields fs' 0 innerL hc hsup fj hfj fs' (zeroFields fs')
            (hasTypeFields_zeroFields fs') rfl
        | some w =>
          cases w <;> try exact Bool.noConfusion hv
          case ptr o2 => cases o2 <;> exact Bool.noConfusion hv
          case strct ws => exact walkFields fs' 0 innerL hc hsup fj hfj fs' ws hv rfl
  | .int, _, hc, _, _, _, _, _ => Option.noConfusion hc
  | .uint, _, hc, _, _, _, _, _ => Option.noConfusion hc
  | .float, _, hc, _, _, _, _, _ => Option.noConfusion hc
  | .bool, _, hc, _, _, _, _, _ => Option.noConfusion hc
  | .str, _, hc, _, _, _, _, _ => Option.noConfusion hc
  | .time, _, hc, _, _, _, _, _ => Option.noConfusion hc
  | .slice _, _, hc, _, _, _, _, _ => Option.noConfusion hc
end

/-! ### The omitempty scan computes the claim's inclusion condition -/

theorem anyNonZeroAt_eq_any (fs : GoFields) (fields : List FieldInfo) (fi : FieldInfo)
    (hc : collectFields fs = some fields) (hsup : leavesSupported fs = true)
    (hfi : fi ∈ fields) (isPtrElem : Bool) :
    ∀ elems : List GoValue,
      (∀ e ∈ elems, hasType e (if isPtrElem then .ptr (.strct fs) else .strct fs) = true) →
      anyNonZeroAt (.strct fs) isPtrElem fi.indexPath elems =
        some (elems.any (elemFieldNonZero (.strct fs) isPtrElem fi.indexPath)) := by
  intro elems
  induction elems with
  | nil => intro _; rfl
  | cons e rest ih =>
    intro helems
    have he : hasType e (if isPtrElem then .ptr (.strct fs) else .strct fs) = true :=
      helems e (List.mem_cons_self e rest)
    have hrest : ∀ x ∈ rest,
        hasType x (if isPtrElem then .ptr (.strct fs) else .strct fs) = true :=
      fun x hx => helems x (List.mem_cons_of_mem e hx)
    cases isPtrElem with
    | true =>
      simp only [if_true] at he
      cases e <;> try exact Bool.noConfusion he
      rename_i o
      cases o with
      | none =>
        simp only [anyNonZeroAt, List.any_cons, elemFieldNonZero, Bool.false_or]
        exact ih hrest
      | some w =>
        cases w <;> try exact Bool.noConfusion he
        case ptr o2 => cases o2 <;> exact Bool.noConfusion he
        case strct ws =>
        obtain ⟨t', v', hwalk, hs', ht'⟩ :=
          walkFields fs 0 fields hc hsup fi hfi fs ws he rfl
        simp only [anyNonZeroAt, List.any_cons, elemFieldNonZero, hwalk]
        rw [isZeroValue_eq_specIsEmpty hs' ht']
        cases hz : specIsEmpty v' with
        | true =>
          simp only [Bool.not_true, Bool.false_or]
          simpa using ih hrest
        | false => simp
    | false =>
      simp only [if_false] at he
      cases e <;> try exact Bool.noConfusion he
      case ptr o => cases o <;> exact Bool.noConfusion he
      case strct ws =>
        obtain ⟨t', v', hwalk, hs', ht'⟩ :=
          walkFields fs 0 fields hc hsup fi hfi fs ws he rfl
        simp only [anyNonZeroAt, List.any_cons, elemFieldNonZero, hwalk]
        rw [isZeroValue_eq_specIsEmpty hs' ht']
        cases hz : specIsEmpty v' with
        | true =>
          simp only [Bool.not_true, Bool.false_or]
          simpa using ih hrest
        | false => simp

theorem computeInclude_eq (fs : GoFields) (fields : List FieldInfo)
    (hc : collectFields fs = some fields) (hsup : leavesSupported fs = true)
    (isPtrElem : Bool) (elems : List GoValue)
    (helems : ∀ e ∈ elems,
      hasType e (if isPtrElem then .ptr (.strct fs) else .strct fs) = true) :
    computeInclude (.strct fs) isPtrElem elems fields =
      some (fields.map (fun fi => fieldIncluded (.strct fs) isPtrElem elems fi)) := by
  unfold computeInclude
  have main : ∀ l : List FieldInfo, (∀ fi ∈ l, fi ∈ fields) →
      l.mapM (fun fi => if !fi.omitempty then some true
        else anyNonZeroAt (.strct fs) isPtrElem fi.indexPath elems) =
      some (l.map (fun fi => fieldIncluded (.strct fs) isPtrElem elems fi)) := by
    intro l
    induction l with
    | nil => intro _; rfl
    | cons fi l ih =>
      intro hsub
      rw [List.mapM_cons, ih (fun x hx => hsub x (List.mem_cons_of_mem fi hx))]
      have hfi : fi ∈ fields := hsub fi (List.mem_cons_self fi l)
      cases ho : fi.omitempty with
      | false =>
        simp only [ho, Bool.not_false, if_true]
        simp [fieldIncluded, ho]
      | true =>
        simp only [ho, Bool.not_true, Bool.false_eq_true, if_false]
        rw [anyNonZeroAt_eq_any fs fields fi hc hsup hfi isPtrElem elems helems]
        simp [fieldIncluded, ho]
  exact main fields (fun fi hfi => hfi)

theorem zip_map_filter {α : Type} (p : α → Bool) : ∀ l : List α,
    (((l.zip (l.map p)).filter (fun x => x.2)).map (fun x => x.1)) = l.filter p := by
  intro l
  induction l with
  | nil => rfl
  | cons a l ih =>
    simp only [List.map_cons, List.zip_cons_cons, List.filter_cons]
    cases hp : p a with
    | true => simp [hp, ih]
    | false => simp [hp, ih]

theorem mapM_ok_length {ε α β : Type} (f : α → Except ε β) :
    ∀ (l : List α) (out : List β), l.mapM f = .ok out → out.length = l.length := by
  intro l
  induction l with
  | nil =>
    intro out h
    simp only [List.mapM_nil] at h
    cases h
    rfl
  | cons a l ih =>
    intro out h
    rw [List.mapM_cons] at h
    cases hf : f a with
    | error e => rw [hf] at h; exact Except.noConfusion h
    | ok b =>
      rw [hf] at h
      cases hm : l.mapM f with
      | error e => rw [hm] at h; exact Except.noConfusion h
      | ok bs =>
        rw [hm] at h
        have h' : Except.ok (b :: bs) = Except.ok out := h
        cases h'
        simp [ih bs hm]

theorem mapM_ok_forall {ε α β : Type} (f : α → Except ε β) :
    ∀ (l : List α) (out : List β), l.mapM f = .ok out →
      ∀ y ∈ out, ∃ x ∈ l, f x = .ok y := by
  intro l
  induction l with
  | nil =>
    intro out h y hy
    simp only [List.mapM_nil] at h
    cases h
    exact absurd hy (List.not_mem_nil y)
  | cons a l ih =>
    intro out h y hy
    rw [List.mapM_cons] at h
    cases hf : f a with
    | error e => rw [hf] at h; exact Except.noConfusion h
    | ok b =>
      rw [hf] at h
      cases hm : l.mapM f with
      | error e => rw [hm] at h; exact Except.noConfusion h
      | ok bs =>
        rw [hm] at h
        have h' : Except.ok (b :: bs) = Except.ok out := h
        cases h'
        rcases List.mem_cons.mp hy with rfl | hy
        · exact ⟨a, List.mem_cons_self a l, hf⟩
        · obtain ⟨x, hx, hfx⟩ := ih bs hm y hy
          exact ⟨x, List.mem_cons_of_mem a hx, hfx⟩

/-! ### Claim C2 -/

/-- C2: in every encode call (all four accepted shapes funnel into
`marshalSlice`), the emitted header consists of exactly the collected leaf
fields that pass the claim's inclusion condition — not marked omit-if-empty,
or holding a non-empty value (per the spec's per-kind emptiness rule) in at
least one record of the collection — in collection order, and every data row
carries exactly one cell per included column. -/
theorem C2_omitempty_columns :
    (∀ (fs : GoFields) (isPtrElem : Bool) (elems : List GoValue)
        (fields : List FieldInfo) (hdr : List String) (rows : List (List String)),
      collectFields fs = some fields →
      leavesSupported fs = true →
      (∀ e ∈ elems,
        hasType e (if isPtrElem then .ptr (.strct fs) else .strct fs) = true) →
      marshalSlice (if isPtrElem then .ptr (.strct fs) else .strct fs) elems =
        .ok (hdr :: rows) →
      hdr = (fields.filter
          (fun fi => fieldIncluded (.strct fs) isPtrElem elems fi)).map
          (fun fi => fi.name) ∧
      ∀ r ∈ rows, r.length = hdr.length) ∧
    (∀ (et : GoType) (vs : List GoValue),
      Marshal (.slice et) (.slice vs) = marshalSlice et vs) ∧
    (∀ (et : GoType) (vs : List GoValue),
      Marshal (.ptr (.slice et)) (.ptr (some (.slice vs))) = marshalSlice et vs) ∧
    (∀ (fs : GoFields) (ws : List GoValue),
      Marshal (.strct fs) (.strct ws) = marshalSlice (.strct fs) [.strct ws]) ∧
    (∀ (fs : GoFields) (ws : List GoValue),
      Marshal (.ptr (.strct fs)) (.ptr (some (.strct ws))) =
        marshalSlice (.strct fs) [.strct ws]) := by
  refine ⟨?_, fun _ _ => rfl, fun _ _ => rfl, fun _ _ => rfl, fun _ _ => rfl⟩
  intro fs isPtrElem elems fields hdr rows hc hsup helems hok
  have hinc := computeInclude_eq fs fields hc hsup isPtrElem elems helems
  have hfilter := zip_map_filter
    (fun fi => fieldIncluded (.strct fs) isPtrElem elems fi) fields
  cases isPtrElem with
  | false =>
    have hok' : marshalSliceCore (.strct fs) false elems = .ok (hdr :: rows) := hok
    simp only [marshalSliceCore] at hok'
    simp only [hc, hinc] at hok'
    cases hrows : elems.mapM (marshalRecord (.strct fs) false
        (((fields.zip (fields.map (fun fi =>
          fieldIncluded (.strct fs) false elems fi))).filter
          (fun p => p.2)).map (fun p => p.1))) with
    | error e => rw [hrows] at hok'; exact Except.noConfusion hok'
    | ok rows' =>
      rw [hrows] at hok'
      simp at hok'
      obtain ⟨hhdr, hrows2⟩ := hok' 
      constructor
      · rw [← hhdr, ← hfilter]
        rw [List.map_map]
      · intro r hr
        rw [← hrows2] at hr
        obtain ⟨e, he, hrec⟩ := mapM_ok_forall _ elems rows' hrows r hr
        have hlen := mapM_ok_length _ _ _ hrec
        rw [← hhdr, hlen]
        simp
  | true =>
    have hok' : marshalSliceCore (.strct fs) true elems = .ok (hdr :: rows) := hok
    simp only [marshalSliceCore] at hok'
    simp only [hc, hinc] at hok'
    cases hrows : elems.mapM (marshalRecord (.strct fs) true
        (((fields.zip (fields.map (fun fi =>
          fieldIncluded (.strct fs) true elems fi))).filter
          (fun p => p.2)).map (fun p => p.1))) with
    | error e => rw [hrows] at hok'; exact Except.noConfusion hok'
    | ok rows' =>
      rw [hrows] at hok'
      simp at hok'
      obtain ⟨hhdr, hrows2⟩ := hok' 
      constructor
      · rw [← hhdr, ← hfilter]
        rw [List.map_map]
      · intro r hr
        rw [← hrows2] at hr
        obtain ⟨e, he, hrec⟩ := mapM_ok_forall _ elems rows' hrows r hr
        cases e <;> try exact Except.noConfusion hrec
        case ptr o =>
          cases o with
          | none => exact Except.noConfusion hrec
          | some w =>
            have hlen := mapM_ok_length _ _ _ hrec
            rw [← hhdr, hlen]
            simp

theorem C2_witness :
    (["a"] : List String) =
      (([{ name := "a", indexPath := [0], omitempty := false },
         { name := "extra", indexPath := [1], omitempty := true }].filter
          (fun fi => fieldIncluded
            (.strct (.cons "A" "a" false .str (.cons "E" "extra,omitempty" false .str .nil)))
            false [] fi)).map (fun fi => fi.name)) ∧
    ∀ r ∈ ([] : List (List String)), r.length = (["a"] : List String).length :=
  C2_omitempty_columns.1
    (.cons "A" "a" false .str (.cons "E" "extra,omitempty" false .str .nil))
    false [] _ ["a"] [] rfl rfl
    (fun e he => absurd he (List.not_mem_nil e)) rfl

/-! ### Claim C6 -/

/-- C6: for a record type with an embedded (anonymous) sub-record at any
declaration position — embedded directly or through one level of pointer —
the collected leaf fields are those of the fields before it, then the
sub-record's own leaf fields spliced in at that position (their access
paths extended by the embedding index, depth-first), then those of the
subsequent direct fields; the embedded field itself contributes no entry.
Concretely, an embedded sub-record {id, name} plus a direct field {extra}
marshals to header id,name,extra. -/
theorem C6_embedded_flattening :
    (∀ (before : GoFields) (ename etag : String) (inner rest : GoFields)
        (lb li lr : List FieldInfo),
      collectFieldsGo before [] 0 = some lb →
      collectFields inner = some li →
      collectFieldsGo rest [] (before.length + 1) = some lr →
      collectFields (before.append (.cons ename etag true (.strct inner) rest)) =
        some (lb ++ (li.map (prefixFi [before.length]) ++ lr))) ∧
    (∀ (before : GoFields) (ename etag : String) (inner rest : GoFields)
        (lb li lr : List FieldInfo),
      collectFieldsGo before [] 0 = some lb →
      collectFields inner = some li →
      collectFieldsGo rest [] (before.length + 1) = some lr →
      collectFields (before.append (.cons ename etag true (.ptr (.strct inner)) rest)) =
        some (lb ++ (li.map (prefixFi [before.length]) ++ lr))) ∧
    Marshal (.strct (.cons "M" "" true
        (.strct (.cons "Id" "id" false .int (.cons "Name" "name" false .str .nil)))
        (.cons "Extra" "extra" false .str .nil)))
      (.strct [.strct [.int 7, .str "a"], .str "x"]) =
      .ok [["id", "name", "extra"], ["7", "a", "x"]] := by
  refine ⟨?_, ?_, rfl⟩
  · intro before ename etag inner rest lb li lr hb hi hr
    unfold collectFields at hi ⊢
    have hmid : collectFieldsGo (.cons ename etag true (.strct inner) rest) []
        (0 + before.length) = some (li.map (prefixFi [before.length]) ++ lr) := by
      rw [Nat.zero_add]
      simp only [collectFieldsGo, if_true, collectAnon, List.nil_append]
      rw [collectFieldsGo_shift inner [before.length] 0, hi, hr]
      simp
    rw [collectFieldsGo_append, hb, hmid]
    simp
  · intro before ename etag inner rest lb li lr hb hi hr
    unfold collectFields at hi ⊢
    have hmid : collectFieldsGo (.cons ename etag true (.ptr (.strct inner)) rest) []
        (0 + before.length) = some (li.map (prefixFi [before.length]) ++ lr) := by
      rw [Nat.zero_add]
      simp only [collectFieldsGo, if_true, collectAnon, collectAnonElem, List.nil_append]
      rw [collectFieldsGo_shift inner [before.length] 0, hi, hr]
      simp
    rw [collectFieldsGo_append, hb, hmid]
    simp

theorem C6_witness :
    collectFields ((GoFields.cons "A" "a" false .str .nil).append
        (.cons "M" "" true (.strct (.cons "Id" "id" false .int .nil)) .nil)) =
      some ([{ name := "a", indexPath := [0], omitempty := false }] ++
        ([{ name := "id", indexPath := [0], omitempty := false }].map (prefixFi [1]) ++ [])) :=
  C6_embedded_flattening.1 (.cons "A" "a" false .str .nil) "M" ""
    (.cons "Id" "id" false .int .nil) .nil
    [{ name := "a", indexPath := [0], omitempty := false }]
    [{ name := "id", indexPath := [0], omitempty := false }] [] rfl rfl rfl

/-! ### Claim C4 (corrected) -/

/-- C4 counterexample: a leaf field declared `Extra` with annotation
",omitempty" (an annotation supplying only the omit-if-empty option and no
name) resolves to column name "omitempty" — the option token itself — and
not to the field's own declared name "Extra" as the claim states (the omit
flag is not even set, as no token follows the first). -/
theorem C4_counterexample :
    collectFields (.cons "Extra" ",omitempty" false .str .nil) =
      some [{ name := "omitempty", indexPath := [0], omitempty := false }] ∧
    ("omitempty" : String) ≠ "Extra" :=
  ⟨rfl, by decide⟩

/-- C4 amended: a leaf field's column name is the field's own declared name
only when the annotation is absent (empty tag); for a non-empty annotation
the first non-empty whitespace-trimmed comma-token becomes the column name,
even when that token is an option marker such as "omitempty" (the omit flag
is then set only by a later token); a non-empty annotation all of whose
tokens trim to empty makes field collection panic.  Accordingly, the column
names collected from any struct type are exactly `leafNamesF`, which applies
this rule leaf by leaf. -/
theorem C4_amended :
    (∀ fname : String, parseFieldTag fname "" = some (fname, false)) ∧
    (∀ (fname tag p0 : String) (ps : List String), tag ≠ "" →
      splitTag tag = p0 :: ps →
      parseFieldTag fname tag = some (p0, ps.contains "omitempty")) ∧
    (∀ fname tag : String, tag ≠ "" → splitTag tag = [] →
      parseFieldTag fname tag = none) ∧
    (∀ (fs : GoFields) (l : List FieldInfo), collectFields fs = some l →
      l.map (fun fi => fi.name) = leafNamesF fs) := by
  refine ⟨fun fname => rfl, ?_, ?_, ?_⟩
  · intro fname tag p0 ps htag hsplit
    unfold parseFieldTag
    rw [show (tag == "") = false from beq_eq_false_iff_ne.mpr htag, hsplit]
    rfl
  · intro fname tag htag hsplit
    unfold parseFieldTag
    rw [show (tag == "") = false from beq_eq_false_iff_ne.mpr htag, hsplit]
    rfl
  · intro fs l h
    exact collectFieldsGo_names fs [] 0 l h

theorem C4_witness :
    parseFieldTag "F" "name, omitempty" =
      some ("name", (["omitempty"] : List String).contains "omitempty") :=
  C4_amended.2.1 "F" "name, omitempty" "name" ["omitempty"] (by decide) (by rfl)

/-! ### Claim C3 (corrected) -/

/-- C3 counterexample: decoding rows "1" then unparseable "zz" into an int
column of a slice target returns the conversion error, yet the caller's
(initially empty) slice now holds the record decoded from the first row —
the target collection is not left unchanged. -/
theorem C3_counterexample :
    Unmarshal [["n"], ["1"], ["zz"]]
        (.ptr (.slice (.strct (.cons "N" "n" false .int .nil))))
        (.ptr (some (.slice []))) =
      (.ptr (some (.slice [.strct [.int 1]])), some (.conv "zz")) ∧
    GoValue.slice [.strct [.int 1]] ≠ .slice [] := by
  refine ⟨rfl, ?_⟩
  intro h
  injection h with h1
  exact List.noConfusion h1

theorem unmarshal_single_target_cases (records : List (List String)) (fsDecl : GoFields)
    (tgt : GoValue) :
    (Unmarshal records (.ptr (.strct fsDecl)) tgt).1 = tgt ∨
    (Unmarshal records (.ptr (.strct fsDecl)) tgt).2 = none := by
  cases tgt <;> try (left; rfl)
  rename_i o
  cases o <;> try (left; rfl)
  rename_i w
  cases w <;> try (left; rfl)
  rename_i vs
  cases records with
  | nil => left; rfl
  | cons headers dataRows =>
    cases hc : collectFields fsDecl with
    | none => left; simp only [Unmarshal, hc]
    | some fields =>
      rcases hrows : unmarshalRows (.strct fsDecl) false fields headers dataRows [] with
        ⟨decoded, err⟩
      cases err with
      | some e => left; simp only [Unmarshal, hc, hrows]
      | none =>
        cases decoded with
        | nil => left; simp only [Unmarshal, hc, hrows]
        | cons first rest => right; simp only [Unmarshal, hc, hrows]

theorem unmarshal_slice_target_extends (records : List (List String)) (et : GoType)
    (cur : List GoValue) :
    ∃ extra, (Unmarshal records (.ptr (.slice et)) (.ptr (some (.slice cur)))).1 =
      .ptr (some (.slice (cur ++ extra))) := by
  have harm : ∀ (sTy : GoType) (isPtrElem : Bool),
      ∃ extra, (unmarshalSliceArm sTy isPtrElem records
        (.ptr (some (.slice cur))) cur).1 = .ptr (some (.slice (cur ++ extra))) := by
    intro sTy isPtrElem
    cases sTy with
    | strct fsDecl =>
      cases records with
      | nil => exact ⟨[], by simp only [unmarshalSliceArm, List.append_nil]⟩
      | cons headers dataRows =>
        cases hc : collectFields fsDecl with
        | none => exact ⟨[], by simp only [unmarshalSliceArm, hc, List.append_nil]⟩
        | some fields =>
          obtain ⟨extra, hex⟩ :=
            unmarshalRows_extends (.strct fsDecl) isPtrElem fields headers dataRows cur
          refine ⟨extra, ?_⟩
          simp only [unmarshalSliceArm, hc]
          rw [hex]
    | ptr e => exact ⟨[], by simp only [unmarshalSliceArm, List.append_nil]⟩
    | int => exact ⟨[], by simp only [unmarshalSliceArm, List.append_nil]⟩
    | uint => exact ⟨[], by simp only [unmarshalSliceArm, List.append_nil]⟩
    | float => exact ⟨[], by simp only [unmarshalSliceArm, List.append_nil]⟩
    | bool => exact ⟨[], by simp only [unmarshalSliceArm, List.append_nil]⟩
    | str => exact ⟨[], by simp only [unmarshalSliceArm, List.append_nil]⟩
    | time => exact ⟨[], by simp only [unmarshalSliceArm, List.append_nil]⟩
    | slice e => exact ⟨[], by simp only [unmarshalSliceArm, List.append_nil]⟩
  cases et with
  | ptr e => exact harm e true
  | strct fsDecl => exact harm (.strct fsDecl) false
  | int => exact harm .int false
  | uint => exact harm .uint false
  | float => exact harm .float false
  | bool => exact harm .bool false
  | str => exact harm .str false
  | time => exact harm .time false
  | slice e => exact harm (.slice e) false

/-- C3 amended: every failure is returned immediately (no further rows are
decoded, and the functional `Marshal` is atomic by construction), and a
failing decode leaves a single-record target unchanged; but a slice target
is extended in place row by row, so the records decoded from rows before
the failing one remain appended to the caller's slice (the original
elements always stay as a prefix). -/
theorem C3_amended :
    (∀ (records : List (List String)) (fsDecl : GoFields) (tgt : GoValue),
      ((Unmarshal records (.ptr (.strct fsDecl)) tgt).2).isSome = true →
      (Unmarshal records (.ptr (.strct fsDecl)) tgt).1 = tgt) ∧
    (∀ (records : List (List String)) (et : GoType) (cur : List GoValue),
      ∃ extra, (Unmarshal records (.ptr (.slice et)) (.ptr (some (.slice cur)))).1 =
        .ptr (some (.slice (cur ++ extra)))) := by
  constructor
  · intro records fsDecl tgt herr
    rcases unmarshal_single_target_cases records fsDecl tgt with h | h
    · exact h
    · rw [h] at herr
      exact Bool.noConfusion herr
  · exact unmarshal_slice_target_extends

theorem C3_witness :
    (Unmarshal [["n"], ["zz"]] (.ptr (.strct (.cons "N" "n" false .int .nil)))
        (.ptr (some (.strct [.int 7])))).1 = .ptr (some (.strct [.int 7])) :=
  C3_amended.1 [["n"], ["zz"]] (.cons "N" "n" false .int .nil)
    (.ptr (some (.strct [.int 7]))) (by rfl)

/-! ### Round-trip machinery: path-level writes -/

theorem applyWrites_append (sTy : GoType) : ∀ (A B : List (List Nat × String)) (nv : GoValue),
    applyWrites sTy (A ++ B) nv =
      match applyWrites sTy A nv with
      | .ok nv' => applyWrites sTy B nv'
      | .error e => .error e
  | [], _, _ => rfl
  | pc :: A, B, nv => by
    simp only [List.cons_append, applyWrites]
    cases modifyFieldByIndexPath (decodeCell pc.2) sTy nv pc.1 with
    | ok nv' => exact applyWrites_append sTy A B nv'
    | error e => rfl

theorem set_append_length {α : Type} : ∀ (pre l : List α) (x : α),
    (pre ++ l).set pre.length x = pre ++ l.set 0 x
  | [], l, x => by cases l <;> rfl
  | a :: pre, l, x => by
    show a :: (pre ++ l).set pre.length x = a :: (pre ++ l.set 0 x)
    rw [set_append_length pre l x]

theorem getElem?_append_length {α : Type} : ∀ (pre l : List α),
    (pre ++ l)[pre.length]? = l[0]?
  | [], l => by cases l <;> rfl
  | a :: pre, l => by
    simp only [List.cons_append, List.length_cons, List.getElem?_cons_succ]
    exact getElem?_append_length pre l

theorem getElem?_set_same {α : Type} : ∀ (l : List α) (i : Nat) (x : α),
    i < l.length → (l.set i x)[i]? = some x
  | [], i, _, h => absurd h (Nat.not_lt_zero i)
  | _ :: _, 0, _, _ => by simp [List.set]
  | a :: l, i + 1, x, h => by
    simp only [List.set, List.getElem?_cons_succ]
    exact getElem?_set_same l i x (Nat.lt_of_succ_lt_succ h)

theorem zip_proj_self {α β : Type} : ∀ E : List (α × β),
    (E.map (fun pc => pc.1)).zip (E.map (fun pc => pc.2)) = E
  | [] => rfl
  | pc :: E => by simp [zip_proj_self E]

theorem mapM_congr_ok {ε α β : Type} (f g : α → Except ε β) :
    ∀ l : List α, (∀ x ∈ l, f x = g x) → l.mapM f = l.mapM g
  | [], _ => rfl
  | a :: l, h => by
    rw [List.mapM_cons, List.mapM_cons, h a (List.mem_cons_self a l),
      mapM_congr_ok f g l (fun x hx => h x (List.mem_cons_of_mem a hx))]

theorem mapM_map_comp {ε α β γ : Type} (f : β → Except ε γ) (g : α → β) :
    ∀ l : List α, (l.map g).mapM f = l.mapM (fun x => f (g x))
  | [] => rfl
  | a :: l => by
    rw [List.map_cons, List.mapM_cons, List.mapM_cons, mapM_map_comp f g l]

theorem mapM_of_forall_ok {ε α β : Type} (f : α → Except ε β) (g : α → β) :
    ∀ l : List α, (∀ x ∈ l, f x = .ok (g x)) → l.mapM f = .ok (l.map g)
  | [], _ => rfl
  | a :: l, h => by
    rw [List.mapM_cons, h a (List.mem_cons_self a l),
      mapM_of_forall_ok f g l (fun x hx => h x (List.mem_cons_of_mem a hx))]
    rfl

theorem mapM_append_ok {ε α β : Type} (f : α → Except ε β) :
    ∀ (A B : List α) (as bs : List β), A.mapM f = .ok as → B.mapM f = .ok bs →
      (A ++ B).mapM f = .ok (as ++ bs)
  | [], B, as, bs, ha, hb => by
    simp only [List.mapM_nil] at ha
    cases ha
    simpa using hb
  | a :: A, B, as, bs, ha, hb => by
    rw [List.mapM_cons] at ha
    cases hf : f a with
    | error e => rw [hf] at ha; exact Except.noConfusion ha
    | ok b =>
      rw [hf] at ha
      cases hm : A.mapM f with
      | error e => rw [hm] at ha; exact Except.noConfusion ha
      | ok as' =>
        rw [hm] at ha
        have ha' : Except.ok (b :: as') = Except.ok as := ha
        cases ha'
        rw [List.cons_append, List.mapM_cons, hf,
          mapM_append_ok f A B as' bs hm hb]
        rfl

/-! ### Name lookup under pairwise-distinct column names -/

theorem find?_reverse_nodup : ∀ (fields : List FieldInfo) (fi : FieldInfo),
    (fields.map (fun x => x.name)).Nodup → fi ∈ fields →
    fields.reverse.find? (fun x => x.name == fi.name) = some fi
  | [], fi, _, hfi => absurd hfi (List.not_mem_nil fi)
  | g :: rest, fi, hnd, hfi => by
    simp only [List.map_cons, List.nodup_cons] at hnd
    rw [List.reverse_cons, List.find?_append]
    rcases List.mem_cons.mp hfi with rfl | hmem
    · have hnone : rest.reverse.find? (fun x => x.name == fi.name) = none := by
        rw [List.find?_eq_none]
        intro x hx
        have hxr : x ∈ rest := List.mem_reverse.mp hx
        have hne : x.name ≠ fi.name := by
          intro hcontra
          exact hnd.1 (hcontra ▸ List.mem_map_of_mem (fun y => y.name) hxr)
        simp [hne]
      rw [hnone]
      simp [List.find?]
    · rw [find?_reverse_nodup rest fi hnd.2 hmem]
      rfl

theorem find?_forward_nodup : ∀ (fields : List FieldInfo) (fi : FieldInfo),
    (fields.map (fun x => x.name)).Nodup → fi ∈ fields →
    fields.find? (fun x => x.name == fi.name) = some fi
  | [], fi, _, hfi => absurd hfi (List.not_mem_nil fi)
  | g :: rest, fi, hnd, hfi => by
    simp only [List.map_cons, List.nodup_cons] at hnd
    rcases List.mem_cons.mp hfi with rfl | hmem
    · simp [List.find?]
    · have hne : g.name ≠ fi.name := by
        intro hcontra
        exact hnd.1 (hcontra ▸ List.mem_map_of_mem (fun y => y.name) hmem)
      simp only [List.find?, beq_eq_false_iff_ne.mpr hne]
      exact find?_forward_nodup rest fi hnd.2 hmem

theorem fieldMapLookup_self (fields : List FieldInfo) (fi : FieldInfo)
    (hnd : (fields.map (fun x => x.name)).Nodup) (hfi : fi ∈ fields) :
    fieldMapLookup fields fi.name = some fi.indexPath := by
  unfold fieldMapLookup
  rw [find?_reverse_nodup fields fi hnd hfi]
  rfl

theorem inclName_eq_fieldIncluded (sTy : GoType) (isPtrElem : Bool)
    (elems : List GoValue) (fields : List FieldInfo) (fi : FieldInfo)
    (hnd : (fields.map (fun x => x.name)).Nodup) (hfi : fi ∈ fields) :
    inclName sTy isPtrElem elems fields fi.name = fieldIncluded sTy isPtrElem elems fi := by
  unfold inclName
  rw [find?_forward_nodup fields fi hnd hfi]

/-! ### Reduction lemmas for single writes -/

theorem wrapBack_of_supported {t : GoType} (hs : supportedKind t = true) (w : GoValue) :
    wrapBack t w = w := by
  cases t <;> first | rfl | exact Bool.noConfusion hs

theorem modify_leaf (upd : GoValue → Except GoErr GoValue) (full : GoFields) (i : Nat)
    (ty : GoType) (S : List GoValue) (fv w : GoValue)
    (hg : full.getTy i = some ty) (hs : supportedKind ty = true)
    (hS : S[i]? = some fv) (hupd : upd fv = .ok w) :
    modifyFieldByIndexPath upd (.strct full) (.strct S) [i] = .ok (.strct (S.set i w)) := by
  simp only [modifyFieldByIndexPath, hg, hS, derefStep_of_supported hs, hupd,
    wrapBack_of_supported hs]

theorem applyCells_eq_applyWrites (sTy : GoType) (fields : List FieldInfo) :
    ∀ (l : List FieldInfo) (cells : List String) (nv : GoValue),
      (∀ fi ∈ l, fieldMapLookup fields fi.name = some fi.indexPath) →
      applyCells sTy fields ((l.map (fun fi => fi.name)).zip cells) nv =
        applyWrites sTy ((l.map (fun fi => fi.indexPath)).zip cells) nv
  | [], _, _, _ => rfl
  | fi :: l, [], nv, _ => rfl
  | fi :: l, c :: cells, nv, h => by
    have hml := h fi (List.mem_cons_self fi l)
    simp only [List.map_cons, List.zip_cons_cons, applyCells, applyWrites, hml]
    cases hm : modifyFieldByIndexPath (decodeCell c) sTy nv fi.indexPath with
    | ok nv' =>
      exact applyCells_eq_applyWrites sTy fields l cells nv'
        (fun x hx => h x (List.mem_cons_of_mem fi hx))
    | error e => rfl

/-! ### Branch alignment between the collectors and the spec-side walks -/

theorem encodePairsAnon_none_iff (incl : String → Bool) (ty : GoType) (v : GoValue) :
    encodePairsAnon incl ty v = none ↔ leafNamesAnon ty = none := by
  cases ty with
  | ptr e =>
    cases e <;>
      simp [encodePairsAnon, encodePairsAnonElem, leafNamesAnon, leafNamesAnonElem]
  | strct fs => simp [encodePairsAnon, leafNamesAnon]
  | _ => simp [encodePairsAnon, leafNamesAnon]

theorem rebuildAnon_none_iff (incl : String → Bool) (ty : GoType) (v : GoValue) :
    rebuildAnon incl ty v = none ↔ leafNamesAnon ty = none := by
  cases ty with
  | ptr e =>
    cases e <;>
      simp [rebuildAnon, rebuildAnonElem, leafNamesAnon, leafNamesAnonElem]
  | strct fs => simp [rebuildAnon, leafNamesAnon]
  | _ => simp [rebuildAnon, leafNamesAnon]

theorem leavesSupportedAnon_none_iff (ty : GoType) :
    leavesSupportedAnon ty = none ↔ leafNamesAnon ty = none := by
  cases ty with
  | ptr e =>
    cases e <;>
      simp [leavesSupportedAnon, leavesSupportedAnonElem, leafNamesAnon,
        leafNamesAnonElem]
  | strct fs => simp [leavesSupportedAnon, leafNamesAnon]
  | _ => simp [leavesSupportedAnon, leafNamesAnon]

theorem collectAnon_none_iff (ty : GoType) (path : List Nat) :
    collectAnon ty path = none ↔ leafNamesAnon ty = none := by
  cases ty with
  | ptr e =>
    cases e <;>
      simp [collectAnon, collectAnonElem, leafNamesAnon, leafNamesAnonElem]
  | strct fs => simp [collectAnon, leafNamesAnon]
  | _ => simp [collectAnon, leafNamesAnon]

/-- Localization: a run of writes whose paths all start with field index `i`
threads through that single field — it equals the run of the unprefixed
writes on the dereferenced field value, re-wrapped and stored once (no
writes leave the field untouched, and in particular unallocated). -/
theorem applyWrites_atField (full : GoFields) (i : Nat) (fty : GoType)
    (hget : full.getTy i = some fty) :
    ∀ (pairs : List (List Nat × String)) (S : List GoValue) (fv : GoValue),
      S[i]? = some fv →
      (∀ e, fty = .ptr e → ∃ o, fv = .ptr o) →
      applyWrites (.strct full) (pairs.map (fun pc => (i :: pc.1, pc.2))) (.strct S) =
        match pairs with
        | [] => .ok (.strct S)
        | _ :: _ =>
          match applyWrites (derefStep fty fv).1 pairs (derefStep fty fv).2 with
          | .ok w => .ok (.strct (S.set i (wrapBack fty w)))
          | .error e => .error e
  | [], S, fv, _, _ => rfl
  | pc :: rest, S, fv, hS, hshape => by
    have hlt : i < S.length := by
      by_contra hge
      rw [List.getElem?_eq_none (Nat.le_of_not_lt hge)] at hS
      exact Option.noConfusion hS
    simp only [List.map_cons, applyWrites, modifyFieldByIndexPath, hget, hS]
    cases hm : modifyFieldByIndexPath (decodeCell pc.2) (derefStep fty fv).1
        (derefStep fty fv).2 pc.1 with
    | error e => simp only [hm]
    | ok w1 =>
      simp only [hm]
      have hS' : (S.set i (wrapBack fty w1))[i]? = some (wrapBack fty w1) :=
        getElem?_set_same S i (wrapBack fty w1) hlt
      have hshape' : ∀ e, fty = .ptr e → ∃ o, wrapBack fty w1 = .ptr o := by
        intro e hfe
        subst hfe
        exact ⟨some w1, rfl⟩
      rw [applyWrites_atField full i fty hget rest (S.set i (wrapBack fty w1))
        (wrapBack fty w1) hS' hshape']
      have hderef : derefStep fty (wrapBack fty w1) = ((derefStep fty fv).1, w1) := by
        cases fty
        case ptr e =>
          obtain ⟨o, rfl⟩ := hshape e rfl
          cases o <;> rfl
        all_goals rfl
      rw [hderef]
      cases rest with
      | nil => simp only [applyWrites, hm]
      | cons pc2 rest2 => simp only [applyWrites, hm, List.set_set]

/-! ### A record with no included columns gets no writes and rebuilds to zero -/

mutual
theorem encodePairs_nil_iff : ∀ (incl : String → Bool) (fs : GoFields)
    (vs : List GoValue) (i : Nat),
    encodePairs incl fs vs i = [] ↔ (leafNamesF fs).any incl = false
  | incl, .nil, vs, i => by simp [encodePairs, leafNamesF]
  | incl, .cons fname tag anon ty rest, vs, i => by
    cases hd : (if anon then encodePairsAnon incl ty (vs.headD (zeroValue ty)) else none) with
    | some E =>
      have hanon : anon = true := by
        cases anon
        · exact Option.noConfusion hd
        · rfl
      subst hanon
      simp only [if_true] at hd
      cases hn : leafNamesAnon ty with
      | none =>
        rw [(encodePairsAnon_none_iff incl ty (vs.headD (zeroValue ty))).mpr hn] at hd
        exact Option.noConfusion hd
      | some names =>
        have hiff := encodePairsAnon_nil_iff incl ty (vs.headD (zeroValue ty)) E names hd hn
        have hih := encodePairs_nil_iff incl rest vs.tail (i + 1)
        simp only [encodePairs, leafNamesF, if_true, hd, hn]
        rw [List.append_eq_nil, List.any_append, Bool.or_eq_false_iff]
        constructor
        · rintro ⟨hE, ht⟩
          exact ⟨hiff.mp (List.map_eq_nil_iff.mp hE), hih.mp ht⟩
        · rintro ⟨hn1, ht⟩
          have hE : E = [] := hiff.mpr hn1
          subst hE
          exact ⟨rfl, hih.mpr ht⟩
    | none =>
      have hn : (if anon then leafNamesAnon ty else none) = none := by
        cases anon
        · rfl
        · simp only [if_true] at hd ⊢
          exact (encodePairsAnon_none_iff incl ty (vs.headD (zeroValue ty))).mp hd
      have hih := encodePairs_nil_iff incl rest vs.tail (i + 1)
      simp only [encodePairs, leafNamesF, hd, hn]
      cases hi : incl (tagName fname tag) with
      | true => simp [hi]
      | false =>
        simp only [hi, Bool.false_eq_true, if_false, List.nil_append, List.any_cons,
          Bool.false_or]
        exact hih
theorem encodePairsAnon_nil_iff : ∀ (incl : String → Bool) (ty : GoType) (v : GoValue)
    (E : List (List Nat × String)) (names : List String),
    encodePairsAnon incl ty v = some E → leafNamesAnon ty = some names →
    (E = [] ↔ names.any incl = false)
  | incl, .strct fs, v, E, names, hE, hn => by
    simp only [encodePairsAnon, Option.some_inj] at hE
    simp only [leafNamesAnon, Option.some_inj] at hn
    subst hE
    subst hn
    exact encodePairs_nil_iff incl fs (structFieldsOf v) 0
  | incl, .ptr e, v, E, names, hE, hn => by
    simp only [encodePairsAnon] at hE
    simp only [leafNamesAnon] at hn
    cases e <;> try exact Option.noConfusion hE
    case strct fs =>
      simp only [encodePairsAnonElem, Option.some_inj] at hE
      simp only [leafNamesAnonElem, Option.some_inj] at hn
      subst hE
      subst hn
      exact encodePairs_nil_iff incl fs (ptrInnerFields fs v) 0
  | _, .int, _, _, _, hE, _ => Option.noConfusion hE
  | _, .uint, _, _, _, hE, _ => Option.noConfusion hE
  | _, .float, _, _, _, hE, _ => Option.noConfusion hE
  | _, .bool, _, _, _, hE, _ => Option.noConfusion hE
  | _, .str, _, _, _, hE, _ => Option.noConfusion hE
  | _, .time, _, _, _, hE, _ => Option.noConfusion hE
  | _, .slice _, _, _, _, hE, _ => Option.noConfusion hE
end

mutual
theorem rebuildFields_zero : ∀ (incl : String → Bool) (fs : GoFields)
    (vs : List GoValue), (leafNamesF fs).any incl = false →
    rebuildFields incl fs vs = zeroFields fs
  | incl, .nil, vs, _ => rfl
  | incl, .cons fname tag anon ty rest, vs, h => by
    cases hd : (if anon then rebuildAnon incl ty (vs.headD (zeroValue ty)) else none) with
    | some rv =>
      have hanon : anon = true := by
        cases anon
        · exact Option.noConfusion hd
        · rfl
      subst hanon
      simp only [if_true] at hd
      cases hn : leafNamesAnon ty with
      | none =>
        rw [(rebuildAnon_none_iff incl ty (vs.headD (zeroValue ty))).mpr hn] at hd
        exact Option.noConfusion hd
      | some names =>
        simp only [leafNamesF, if_true, hn, List.any_append, Bool.or_eq_false_iff] at h
        have hrv := rebuildAnon_zero incl ty (vs.headD (zeroValue ty)) rv names hd hn h.1
        simp only [rebuildFields, zeroFields, if_true, hd, hrv]
        rw [rebuildFields_zero incl rest vs.tail h.2]
    | none =>
      have hn : (if anon then leafNamesAnon ty else none) = none := by
        cases anon
        · rfl
        · simp only [if_true] at hd ⊢
          exact (rebuildAnon_none_iff incl ty (vs.headD (zeroValue ty))).mp hd
      simp only [leafNamesF, hn, List.any_cons, Bool.or_eq_false_iff] at h
      simp only [rebuildFields, zeroFields, hd, h.1, Bool.false_eq_true, if_false]
      rw [rebuildFields_zero incl rest vs.tail h.2]
theorem rebuildAnon_zero : ∀ (incl : String → Bool) (ty : GoType) (v rv : GoValue)
    (names : List String), rebuildAnon incl ty v = some rv →
    leafNamesAnon ty = some names → names.any incl = false → rv = zeroValue ty
  | incl, .strct fs, v, rv, names, hr, hn, ha => by
    simp only [rebuildAnon, Option.some_inj] at hr
    simp only [leafNamesAnon, Option.some_inj] at hn
    subst hn
    rw [rebuildFields_zero incl fs (structFieldsOf v) ha] at hr
    rw [← hr]
    rfl
  | incl, .ptr e, v, rv, names, hr, hn, ha => by
    simp only [rebuildAnon] at hr
    simp only [leafNamesAnon] at hn
    cases e <;> try exact Option.noConfusion hr
    case strct fs =>
      simp only [rebuildAnonElem, Option.some_inj] at hr
      simp only [leafNamesAnonElem, Option.some_inj] at hn
      subst hn
      rw [ha, if_neg (by simp)] at hr
      rw [← hr]
      rfl
  | _, .int, _, _, _, hr, _, _ => Option.noConfusion hr
  | _, .uint, _, _, _, hr, _, _ => Option.noConfusion hr
  | _, .float, _, _, _, hr, _, _ => Option.noConfusion hr
  | _, .bool, _, _, _, hr, _, _ => Option.noConfusion hr
  | _, .str, _, _, _, hr, _, _ => Option.noConfusion hr
  | _, .time, _, _, _, hr, _, _ => Option.noConfusion hr
  | _, .slice _, _, _, _, hr, _, _ => Option.noConfusion hr
end

/-! ### The encoded row of one record is exactly its write list -/

mutual
theorem encodeRow_eq : ∀ (incl : String → Bool) (sub : GoFields) (i : Nat)
    (l : List FieldInfo), collectFieldsGo sub [] i = some l →
    leavesSupported sub = true →
    ∀ (full : GoFields) (vs vsub : List GoValue),
      hasTypeFields vs full = true → GoFields.drop i full = sub →
      List.drop i vs = vsub →
      ((l.filter (fun fi => incl fi.name)).map (fun fi => fi.indexPath) =
          (encodePairs incl sub vsub i).map (fun pc => pc.1)) ∧
      (l.filter (fun fi => incl fi.name)).mapM (encodeAt (.strct full) (.strct vs)) =
        .ok ((encodePairs incl sub vsub i).map (fun pc => pc.2))
  | incl, .nil, i, l, h, _, full, vs, vsub, _, _, _ => by
    simp only [collectFieldsGo, Option.some_inj] at h
    subst h
    exact ⟨rfl, rfl⟩
  | incl, .cons fname tag anon ty rest, i, l, h, hsup, full, vs, vsub, hvt, hdrop,
      hvdrop => by
    obtain ⟨hgetTy, hdrop2⟩ := drop_eq_cons full i fname tag anon ty rest hdrop
    obtain ⟨vi, hvi, hvit⟩ := hasTypeFields_getTy full vs i ty hvt hgetTy
    have hv0 : vsub[0]? = some vi := by
      rw [← hvdrop, List.getElem?_drop]
      simpa using hvi
    cases vsub with
    | nil => exact Option.noConfusion hv0
    | cons v0 vsub' =>
    rw [List.getElem?_cons_zero] at hv0
    injection hv0 with hv0'
    have hv0'' : vi = v0 := hv0'.symm
    subst hv0''
    have hvdrop' : List.drop (i + 1) vs = vsub' := by
      rw [← List.tail_drop, hvdrop]
      rfl
    simp only [collectFieldsGo] at h
    cases hb : (if anon then collectAnon ty ([] ++ [i]) else none) with
    | some innerRes =>
      rw [hb] at h
      cases innerRes with
      | none => exact Option.noConfusion h
      | some inner =>
        cases htail : collectFieldsGo rest [] (i + 1) with
        | none => rw [htail] at h; exact Option.noConfusion h
        | some tail =>
          rw [htail] at h
          simp at h
          subst h
          have hanon : anon = true := by
            cases anon
            · exact Option.noConfusion hb
            · rfl
          subst hanon
          simp only [if_true] at hb
          obtain ⟨b, hsupa⟩ := collectAnon_some_sup hb
          have hsup' : b = true ∧ leavesSupported rest = true := by
            simp only [leavesSupported, if_true, hsupa, Bool.and_eq_true] at hsup
            exact hsup
          have hshift := collectAnon_shift ty ([] ++ [i])
          rw [hb] at hshift
          cases hbase : collectAnon ty [] with
          | none => rw [hbase] at hshift; exact Option.noConfusion hshift
          | some r0 =>
            rw [hbase] at hshift
            cases r0 with
            | none => simp at hshift
            | some inner0 =>
              simp at hshift
              subst hshift
              -- the embedded part produces some write list E
              cases hEq : encodePairsAnon incl ty vi with
              | none =>
                have hln := (encodePairsAnon_none_iff incl ty vi).mp hEq
                rw [(collectAnon_none_iff ty []).mpr hln] at hbase
                exact Option.noConfusion hbase
              | some E =>
                have hsupt : leavesSupportedAnon ty = some true := by
                  rw [hsupa, hsup'.1]
                obtain ⟨hA1, hA2⟩ :=
                  encodeRowAnon incl ty inner0 hbase hsupt vi hvit E hEq
                have hcomp : inner0.filter ((fun fi => incl fi.name) ∘ prefixFi [i]) =
                    inner0.filter (fun fj => incl fj.name) :=
                  List.filter_congr (fun x _ => rfl)
                have hfilt : ((List.map (prefixFi [i]) inner0 ++ tail).filter
                      (fun fi => incl fi.name)) =
                    (inner0.filter (fun fj => incl fj.name)).map (prefixFi [i]) ++
                      tail.filter (fun fi => incl fi.name) := by
                  rw [List.filter_append, List.filter_map, hcomp]
                obtain ⟨hI1, hI2⟩ := encodeRow_eq incl rest (i + 1) tail htail
                  hsup'.2 full vs vsub' hvt hdrop2 hvdrop'
                have hpairs : encodePairs incl (.cons fname tag true ty rest)
                    (vi :: vsub') i =
                    E.map (fun pc => (i :: pc.1, pc.2)) ++
                      encodePairs incl rest vsub' (i + 1) := by
                  simp only [encodePairs, if_true, List.headD_cons, hEq, List.tail_cons]
                rw [hfilt, hpairs]
                constructor
                · rw [List.map_append, List.map_append, List.map_map, List.map_map]
                  congr 1
                  rw [show ((fun fi => fi.indexPath) ∘ prefixFi [i]) =
                      (fun fj => i :: fj.indexPath) from rfl]
                  rw [show ((fun pc : List Nat × String => pc.1) ∘
                      (fun pc : List Nat × String => (i :: pc.1, pc.2))) =
                      (fun pc : List Nat × String => i :: pc.1) from rfl]
                  rw [show (fun fj : FieldInfo => i :: fj.indexPath) =
                      ((fun p : List Nat => i :: p) ∘ (fun fj => fj.indexPath)) from rfl]
                  rw [show (fun pc : List Nat × String => i :: pc.1) =
                      ((fun p : List Nat => i :: p) ∘
                        (fun pc : List Nat × String => pc.1)) from rfl]
                  rw [← List.map_map, ← List.map_map, hA1]
                · have hcell : ∀ fj ∈ inner0.filter (fun fj => incl fj.name),
                      encodeAt (.strct full) (.strct vs) (prefixFi [i] fj) =
                        encodeAt (derefStep ty vi).1 (derefStep ty vi).2 fj := by
                    intro fj _
                    simp only [encodeAt, prefixFi]
                    rw [show ([i] : List Nat) ++ fj.indexPath = i :: fj.indexPath from
                      rfl]
                    simp only [getFieldByIndexPath, hgetTy, hvi]
                  have hheadM : ((inner0.filter (fun fj => incl fj.name)).map
                        (prefixFi [i])).mapM (encodeAt (.strct full) (.strct vs)) =
                      .ok (E.map (fun pc => pc.2)) := by
                    rw [mapM_map_comp]
                    rw [mapM_congr_ok _ _ _ hcell]
                    exact hA2
                  rw [List.map_append, List.map_map]
                  rw [show ((fun pc : List Nat × String => pc.2) ∘
                      (fun pc : List Nat × String => (i :: pc.1, pc.2))) =
                      (fun pc : List Nat × String => pc.2) from rfl]
                  exact mapM_append_ok _ _ _ _ _ hheadM hI2
    | none =>
      rw [hb] at h
      cases hnm : parseFieldTag fname tag with
      | none => rw [hnm] at h; exact Option.noConfusion h
      | some nm =>
        rw [hnm] at h
        cases htail : collectFieldsGo rest [] (i + 1) with
        | none => rw [htail] at h; exact Option.noConfusion h
        | some tail =>
          rw [htail] at h
          simp at h
          subst h
          have hnosub : (if anon then leavesSupportedAnon ty else none) = none := by
            cases anon
            · rfl
            · simp only [if_true] at hb ⊢
              exact collectAnon_none_sup hb
          have hsup' : supportedKind ty = true ∧ leavesSupported rest = true := by
            simp only [leavesSupported, hnosub, Bool.and_eq_true] at hsup
            exact hsup
          have hEn : (if anon then encodePairsAnon incl ty
              ((vi :: vsub').headD (zeroValue ty)) else none) = none := by
            cases anon
            · rfl
            · simp only [if_true] at hb ⊢
              exact (encodePairsAnon_none_iff incl ty _).mpr
                ((collectAnon_none_iff ty ([] ++ [i])).mp hb)
          have htag : tagName fname tag = nm.1 := by
            simp [tagName, hnm]
          obtain ⟨hI1, hI2⟩ := encodeRow_eq incl rest (i + 1) tail htail
            hsup'.2 full vs vsub' hvt hdrop2 hvdrop'
          have hpairs : encodePairs incl (.cons fname tag anon ty rest)
              (vi :: vsub') i =
              (if incl nm.1 then [([i], encodeLeafCell vi)] else []) ++
                encodePairs incl rest vsub' (i + 1) := by
            simp only [List.headD_cons] at hEn
            simp only [encodePairs, List.headD_cons, List.tail_cons, hEn, htag]
          rw [hpairs]
          cases hi : incl nm.1 with
          | false =>
            have hfc : (List.filter (fun fi => incl fi.name)
                ({ name := nm.1, indexPath := [i], omitempty := nm.2 } :: tail)) =
                tail.filter (fun fi => incl fi.name) := by
              simp only [List.filter_cons, hi, Bool.false_eq_true, if_false]
            rw [hfc, if_neg Bool.false_ne_true, List.nil_append]
            exact ⟨hI1, hI2⟩
          | true =>
            have hfc : (List.filter (fun fi => incl fi.name)
                ({ name := nm.1, indexPath := [i], omitempty := nm.2 } :: tail)) =
                { name := nm.1, indexPath := [i], omitempty := nm.2 } ::
                  tail.filter (fun fi => incl fi.name) := by
              simp only [List.filter_cons, hi, if_true]
            rw [hfc, if_pos rfl, List.singleton_append]
            obtain ⟨s, hes, _⟩ := decodeCell_encodeField hsup'.1 hvit
            have hhead : encodeAt (.strct full) (.strct vs)
                { name := nm.1, indexPath := [i], omitempty := nm.2 } =
                .ok (encodeLeafCell vi) := by
              simp only [encodeAt]
              simp only [getFieldByIndexPath, hgetTy, hvi,
                derefStep_of_supported hsup'.1]
              simp only [encodeLeafCell, hes]
            constructor
            · simp only [List.map_cons]
              rw [hI1]
            · rw [List.mapM_cons, hhead, hI2]
              rfl
theorem encodeRowAnon : ∀ (incl : String → Bool) (ty : GoType)
    (inner0 : List FieldInfo),
    collectAnon ty [] = some (some inner0) → leavesSupportedAnon ty = some true →
    ∀ (v : GoValue), hasType v ty = true →
    ∀ E, encodePairsAnon incl ty v = some E →
      ((inner0.filter (fun fj => incl fj.name)).map (fun fj => fj.indexPath) =
          E.map (fun pc => pc.1)) ∧
      (inner0.filter (fun fj => incl fj.name)).mapM
          (encodeAt (derefStep ty v).1 (derefStep ty v).2) =
        .ok (E.map (fun pc => pc.2))
  | incl, .strct fs', inner0, hc, hsupk, v, hv, E, hE => by
    simp only [collectAnon, Option.some_inj] at hc
    simp only [leavesSupportedAnon, Option.some_inj] at hsupk
    simp only [encodePairsAnon, Option.some_inj] at hE
    subst hE
    cases v <;> try exact Bool.noConfusion hv
    case ptr o => cases o <;> exact Bool.noConfusion hv
    case strct ws =>
      exact encodeRow_eq incl fs' 0 inner0 hc hsupk fs' ws ws hv rfl rfl
  | incl, .ptr e, inner0, hc, hsupk, v, hv, E, hE => by
    simp only [collectAnon] at hc
    simp only [leavesSupportedAnon] at hsupk
    simp only [encodePairsAnon] at hE
    cases e <;> try exact Option.noConfusion hc
    case strct fs' =>
      simp only [collectAnonElem, Option.some_inj] at hc
      simp only [leavesSupportedAnonElem, Option.some_inj] at hsupk
      simp only [encodePairsAnonElem, Option.some_inj] at hE
      subst hE
      cases v <;> try exact Bool.noConfusion hv
      case ptr o =>
        cases o with
        | none =>
          exact encodeRow_eq incl fs' 0 inner0 hc hsupk fs' (zeroFields fs')
            (zeroFields fs') (hasTypeFields_zeroFields fs') rfl rfl
        | some w =>
          cases w <;> try exact Bool.noConfusion hv
          case ptr o2 => cases o2 <;> exact Bool.noConfusion hv
          case strct ws =>
            exact encodeRow_eq incl fs' 0 inner0 hc hsupk fs' ws ws hv rfl rfl
  | _, .int, _, hc, _, _, _, _, _ => Option.noConfusion hc
  | _, .uint, _, hc, _, _, _, _, _ => Option.noConfusion hc
  | _, .float, _, hc, _, _, _, _, _ => Option.noConfusion hc
  | _, .bool, _, hc, _, _, _, _, _ => Option.noConfusion hc
  | _, .str, _, hc, _, _, _, _, _ => Option.noConfusion hc
  | _, .time, _, hc, _, _, _, _, _ => Option.noConfusion hc
  | _, .slice _, _, hc, _, _, _, _, _ => Option.noConfusion hc
end

/-! ### Replaying a record's write list on a zero record rebuilds the
round-trip normal form -/

mutual
theorem decodeWrites_eq : ∀ (incl : String → Bool) (sub : GoFields) (i : Nat)
    (full : GoFields) (pre vsub : List GoValue),
    GoFields.drop i full = sub → pre.length = i →
    hasTypeFields vsub sub = true → leavesSupported sub = true →
    applyWrites (.strct full) (encodePairs incl sub vsub i)
        (.strct (pre ++ zeroFields sub)) =
      .ok (.strct (pre ++ rebuildFields incl sub vsub))
  | incl, .nil, i, full, pre, vsub, _, _, _, _ => by
    simp only [encodePairs, zeroFields, rebuildFields, applyWrites]
  | incl, .cons fname tag anon ty rest, i, full, pre, vsub, hdrop, hlen, hvt, hsup => by
    obtain ⟨hgetTy, hdrop2⟩ := drop_eq_cons full i fname tag anon ty rest hdrop
    cases vsub with
    | nil => exact Bool.noConfusion hvt
    | cons v vsub' =>
    have hvt' : hasType v ty = true ∧ hasTypeFields vsub' rest = true := by
      simp only [hasTypeFields, Bool.and_eq_true] at hvt
      exact hvt
    have hS : (pre ++ zeroValue ty :: zeroFields rest)[i]? = some (zeroValue ty) := by
      rw [← hlen, getElem?_append_length, List.getElem?_cons_zero]
    cases hd : (if anon then encodePairsAnon incl ty v else none) with
    | none =>
      have hrb : (if anon then rebuildAnon incl ty v else none) = none := by
        cases anon
        · rfl
        · simp only [if_true] at hd ⊢
          exact (rebuildAnon_none_iff incl ty v).mpr
            ((encodePairsAnon_none_iff incl ty v).mp hd)
      have hsupn : (if anon then leavesSupportedAnon ty else none) = none := by
        cases anon
        · rfl
        · simp only [if_true] at hd ⊢
          exact (leavesSupportedAnon_none_iff ty).mpr
            ((encodePairsAnon_none_iff incl ty v).mp hd)
      have hsup' : supportedKind ty = true ∧ leavesSupported rest = true := by
        simp only [leavesSupported, hsupn, Bool.and_eq_true] at hsup
        exact hsup
      have hpairs : encodePairs incl (.cons fname tag anon ty rest) (v :: vsub') i =
          (if incl (tagName fname tag) then [([i], encodeLeafCell v)] else []) ++
            encodePairs incl rest vsub' (i + 1) := by
        simp only [encodePairs, List.headD_cons, List.tail_cons, hd]
      have hrebuild : rebuildFields incl (.cons fname tag anon ty rest) (v :: vsub') =
          (if incl (tagName fname tag) then v else zeroValue ty) ::
            rebuildFields incl rest vsub' := by
        simp only [rebuildFields, List.headD_cons, List.tail_cons, hrb]
      rw [hpairs, hrebuild, applyWrites_append]
      simp only [zeroFields]
      cases hi : incl (tagName fname tag) with
      | true =>
        rw [if_pos rfl, if_pos rfl]
        obtain ⟨s, hes, hdec⟩ := decodeCell_encodeField hsup'.1 hvt'.1
        have hupd : decodeCell (encodeLeafCell v) (zeroValue ty) = .ok v := by
          simp only [encodeLeafCell, hes]
          exact hdec
        have hmod := modify_leaf (decodeCell (encodeLeafCell v)) full i ty
          (pre ++ zeroValue ty :: zeroFields rest) (zeroValue ty) v hgetTy hsup'.1
          hS hupd
        simp only [applyWrites, hmod]
        have hset : (pre ++ zeroValue ty :: zeroFields rest).set i v =
            pre ++ v :: zeroFields rest := by
          rw [← hlen, set_append_length]
          rfl
        rw [hset]
        have hrec := decodeWrites_eq incl rest (i + 1) full (pre ++ [v]) vsub'
          hdrop2 (by simp [hlen]) hvt'.2 hsup'.2
        rw [List.append_assoc, List.singleton_append] at hrec
        rw [hrec, List.append_assoc, List.singleton_append]
      | false =>
        rw [if_neg Bool.false_ne_true, if_neg Bool.false_ne_true]
        simp only [applyWrites]
        have hrec := decodeWrites_eq incl rest (i + 1) full (pre ++ [zeroValue ty])
          vsub' hdrop2 (by simp [hlen]) hvt'.2 hsup'.2
        rw [List.append_assoc, List.singleton_append] at hrec
        rw [hrec, List.append_assoc, List.singleton_append]
    | some E =>
      have hanon : anon = true := by
        cases anon
        · exact Option.noConfusion hd
        · rfl
      subst hanon
      simp only [if_true] at hd
      cases hrb : rebuildAnon incl ty v with
      | none =>
        rw [(encodePairsAnon_none_iff incl ty v).mpr
          ((rebuildAnon_none_iff incl ty v).mp hrb)] at hd
        exact Option.noConfusion hd
      | some rv =>
      cases hn : leafNamesAnon ty with
      | none =>
        rw [(encodePairsAnon_none_iff incl ty v).mpr hn] at hd
        exact Option.noConfusion hd
      | some names =>
      cases hsupo : leavesSupportedAnon ty with
      | none =>
        rw [(encodePairsAnon_none_iff incl ty v).mpr
          ((leavesSupportedAnon_none_iff ty).mp hsupo)] at hd
        exact Option.noConfusion hd
      | some b =>
      have hsup' : b = true ∧ leavesSupported rest = true := by
        simp only [leavesSupported, if_true, hsupo, Bool.and_eq_true] at hsup
        exact hsup
      have hsupt : leavesSupportedAnon ty = some true := by
        rw [hsupo, hsup'.1]
      have hpairs : encodePairs incl (.cons fname tag true ty rest) (v :: vsub') i =
          E.map (fun pc => (i :: pc.1, pc.2)) ++
            encodePairs incl rest vsub' (i + 1) := by
        simp only [encodePairs, if_true, List.headD_cons, List.tail_cons, hd]
      have hrebuild : rebuildFields incl (.cons fname tag true ty rest) (v :: vsub') =
          rv :: rebuildFields incl rest vsub' := by
        simp only [rebuildFields, if_true, List.headD_cons, List.tail_cons, hrb]
      rw [hpairs, hrebuild, applyWrites_append]
      simp only [zeroFields]
      have hshape : ∀ e, ty = .ptr e → ∃ o, zeroValue ty = .ptr o := by
        intro e he
        subst he
        exact ⟨none, rfl⟩
      rw [applyWrites_atField full i ty hgetTy E
        (pre ++ zeroValue ty :: zeroFields rest) (zeroValue ty) hS hshape]
      cases E with
      | nil =>
        have hiff := encodePairsAnon_nil_iff incl ty v [] names hd hn
        have hrv : rv = zeroValue ty :=
          rebuildAnon_zero incl ty v rv names hrb hn (hiff.mp rfl)
        show applyWrites (.strct full) (encodePairs incl rest vsub' (i + 1))
            (.strct (pre ++ zeroValue ty :: zeroFields rest)) =
          .ok (.strct (pre ++ rv :: rebuildFields incl rest vsub'))
        rw [hrv]
        have hrec := decodeWrites_eq incl rest (i + 1) full (pre ++ [zeroValue ty])
          vsub' hdrop2 (by simp [hlen]) hvt'.2 hsup'.2
        rw [List.append_assoc, List.singleton_append] at hrec
        rw [hrec, List.append_assoc, List.singleton_append]
      | cons pc E' =>
        obtain ⟨w, hw, hwrap⟩ := decodeWritesAnon incl ty v rv (pc :: E') hrb hd
          hsupt hvt'.1 (by simp)
        rw [hw]
        show applyWrites (.strct full) (encodePairs incl rest vsub' (i + 1))
            (.strct ((pre ++ zeroValue ty :: zeroFields rest).set i (wrapBack ty w))) =
          .ok (.strct (pre ++ rv :: rebuildFields incl rest vsub'))
        rw [hwrap]
        have hset : (pre ++ zeroValue ty :: zeroFields rest).set i rv =
            pre ++ rv :: zeroFields rest := by
          rw [← hlen, set_append_length]
          rfl
        rw [hset]
        have hrec := decodeWrites_eq incl rest (i + 1) full (pre ++ [rv]) vsub'
          hdrop2 (by simp [hlen]) hvt'.2 hsup'.2
        rw [List.append_assoc, List.singleton_append] at hrec
        rw [hrec, List.append_assoc, List.singleton_append]
theorem decodeWritesAnon : ∀ (incl : String → Bool) (ty : GoType) (v rv : GoValue)
    (E : List (List Nat × String)),
    rebuildAnon incl ty v = some rv → encodePairsAnon incl ty v = some E →
    leavesSupportedAnon ty = some true → hasType v ty = true → E ≠ [] →
    ∃ w, applyWrites (derefStep ty (zeroValue ty)).1 E
        (derefStep ty (zeroValue ty)).2 = .ok w ∧ wrapBack ty w = rv
  | incl, .strct fs', v, rv, E, hrb, hE, hsupk, hv, hne => by
    simp only [rebuildAnon, Option.some_inj] at hrb
    simp only [encodePairsAnon, Option.some_inj] at hE
    simp only [leavesSupportedAnon, Option.some_inj] at hsupk
    subst hE
    subst hrb
    cases v <;> try exact Bool.noConfusion hv
    case ptr o => cases o <;> exact Bool.noConfusion hv
    case strct ws =>
      refine ⟨.strct (rebuildFields incl fs' (structFieldsOf (.strct ws))), ?_, rfl⟩
      exact decodeWrites_eq incl fs' 0 fs' [] ws rfl rfl hv hsupk
  | incl, .ptr e, v, rv, E, hrb, hE, hsupk, hv, hne => by
    simp only [rebuildAnon] at hrb
    simp only [encodePairsAnon] at hE
    simp only [leavesSupportedAnon] at hsupk
    cases e <;> try exact Option.noConfusion hE
    case strct fs' =>
      simp only [rebuildAnonElem, Option.some_inj] at hrb
      simp only [encodePairsAnonElem, Option.some_inj] at hE
      simp only [leavesSupportedAnonElem, Option.some_inj] at hsupk
      subst hE
      have hany : (leafNamesF fs').any incl = true := by
        cases hca : (leafNamesF fs').any incl with
        | true => rfl
        | false =>
          exact absurd ((encodePairs_nil_iff incl fs' (ptrInnerFields fs' v) 0).mpr hca)
            hne
      rw [hany, if_pos rfl] at hrb
      refine ⟨.strct (rebuildFields incl fs' (ptrInnerFields fs' v)), ?_, hrb⟩
      have htyping : hasTypeFields (ptrInnerFields fs' v) fs' = true := by
        cases v <;> try exact Bool.noConfusion hv
        case ptr o =>
          cases o with
          | none => exact hasTypeFields_zeroFields fs'
          | some w =>
            cases w <;> try exact Bool.noConfusion hv
            case ptr o2 => cases o2 <;> exact Bool.noConfusion hv
            case strct ws => exact hv
      exact decodeWrites_eq incl fs' 0 fs' [] (ptrInnerFields fs' v) rfl rfl
        htyping hsupk
  | _, .int, _, _, _, _, hE, _, _, _ => Option.noConfusion hE
  | _, .uint, _, _, _, _, hE, _, _, _ => Option.noConfusion hE
  | _, .float, _, _, _, _, hE, _, _, _ => Option.noConfusion hE
  | _, .bool, _, _, _, _, hE, _, _, _ => Option.noConfusion hE
  | _, .str, _, _, _, _, hE, _, _, _ => Option.noConfusion hE
  | _, .time, _, _, _, _, hE, _, _, _ => Option.noConfusion hE
  | _, .slice _, _, _, _, _, hE, _, _, _ => Option.noConfusion hE
end

/-- Core round trip on the common slice path: encoding a typed collection
with pairwise-distinct column names succeeds, and decoding the resulting
document appends, for each input record, its round-trip normal form
(`rebuildElem`) to the target slice. -/
theorem marshal_unmarshal_core (fs : GoFields) (fields : List FieldInfo)
    (isPtrElem : Bool) (elems : List GoValue) (incl : String → Bool)
    (hc : collectFields fs = some fields)
    (hsup : leavesSupported fs = true)
    (hnd : (fields.map (fun fi => fi.name)).Nodup)
    (hincl : ∀ fi ∈ fields, incl fi.name = fieldIncluded (.strct fs) isPtrElem elems fi)
    (helems : ∀ e ∈ elems,
      hasType e (if isPtrElem then .ptr (.strct fs) else .strct fs) = true)
    (hnonil : ∀ e ∈ elems, isPtrElem = true → e ≠ .ptr none) :
    marshalSliceCore (.strct fs) isPtrElem elems =
      .ok (((fields.filter (fun fi => incl fi.name)).map (fun fi => fi.name)) ::
        elems.map (fun e =>
          (encodePairs incl fs (structFieldsOf (stripElem isPtrElem e)) 0).map
            (fun pc => pc.2))) ∧
    (∀ cur2 : List GoValue,
      unmarshalRows (.strct fs) isPtrElem fields
          ((fields.filter (fun fi => incl fi.name)).map (fun fi => fi.name))
          (elems.map (fun e =>
            (encodePairs incl fs (structFieldsOf (stripElem isPtrElem e)) 0).map
              (fun pc => pc.2))) cur2 =
        (cur2 ++ elems.map (fun e =>
          if isPtrElem then
            GoValue.ptr (some (rebuildElem incl fs (stripElem isPtrElem e)))
          else rebuildElem incl fs (stripElem isPtrElem e)), none)) ∧
    ∀ (target : GoValue) (cur : List GoValue),
      unmarshalSliceArm (.strct fs) isPtrElem
          (((fields.filter (fun fi => incl fi.name)).map (fun fi => fi.name)) ::
            elems.map (fun e =>
              (encodePairs incl fs (structFieldsOf (stripElem isPtrElem e)) 0).map
                (fun pc => pc.2)))
          target cur =
        (.ptr (some (.slice (cur ++ elems.map (fun e =>
          if isPtrElem then
            GoValue.ptr (some (rebuildElem incl fs (stripElem isPtrElem e)))
          else rebuildElem incl fs (stripElem isPtrElem e))))), none) := by
  have hinc := computeInclude_eq fs fields hc hsup isPtrElem elems helems
  have hIL : (((fields.zip (fields.map (fun fi =>
        fieldIncluded (.strct fs) isPtrElem elems fi))).filter
        (fun p => p.2)).map (fun p => p.1)) =
      fields.filter (fun fi => incl fi.name) := by
    rw [zip_map_filter]
    exact List.filter_congr (fun x hx => (hincl x hx).symm)
  have hstrip : ∀ e ∈ elems, ∃ ws, stripElem isPtrElem e = .strct ws ∧
      hasTypeFields ws fs = true := by
    intro e he
    have hty := helems e he
    cases isPtrElem with
    | false =>
      rw [if_neg Bool.false_ne_true] at hty
      cases e <;> try exact Bool.noConfusion hty
      case ptr o => cases o <;> exact Bool.noConfusion hty
      case strct ws => exact ⟨ws, rfl, hty⟩
    | true =>
      rw [if_pos rfl] at hty
      cases e <;> try exact Bool.noConfusion hty
      case ptr o =>
        cases o with
        | none => exact absurd rfl (hnonil (.ptr none) he rfl)
        | some w =>
          cases w <;> try exact Bool.noConfusion hty
          case ptr o2 => cases o2 <;> exact Bool.noConfusion hty
          case strct ws => exact ⟨ws, rfl, hty⟩
  have hrec : ∀ e ∈ elems, marshalRecord (.strct fs) isPtrElem
      (fields.filter (fun fi => incl fi.name)) e =
      .ok ((encodePairs incl fs (structFieldsOf (stripElem isPtrElem e)) 0).map
        (fun pc => pc.2)) := by
    intro e he
    have hty := helems e he
    cases isPtrElem with
    | false =>
      rw [if_neg Bool.false_ne_true] at hty
      cases e <;> try exact Bool.noConfusion hty
      case ptr o => cases o <;> exact Bool.noConfusion hty
      case strct ws =>
        obtain ⟨hA1, hA2⟩ := encodeRow_eq incl fs 0 fields hc hsup fs ws ws hty rfl rfl
        exact hA2
    | true =>
      rw [if_pos rfl] at hty
      cases e <;> try exact Bool.noConfusion hty
      case ptr o =>
        cases o with
        | none => exact absurd rfl (hnonil (.ptr none) he rfl)
        | some w =>
          cases w <;> try exact Bool.noConfusion hty
          case ptr o2 => cases o2 <;> exact Bool.noConfusion hty
          case strct ws =>
            obtain ⟨hA1, hA2⟩ :=
              encodeRow_eq incl fs 0 fields hc hsup fs ws ws hty rfl rfl
            exact hA2
  have hrows := mapM_of_forall_ok
    (marshalRecord (.strct fs) isPtrElem (fields.filter (fun fi => incl fi.name)))
    (fun e => (encodePairs incl fs (structFieldsOf (stripElem isPtrElem e)) 0).map
      (fun pc => pc.2))
    elems hrec
  have hlookup : ∀ fi ∈ fields.filter (fun fi => incl fi.name),
      fieldMapLookup fields fi.name = some fi.indexPath :=
    fun fi hfi => fieldMapLookup_self fields fi hnd (List.mem_of_mem_filter hfi)
  have hrowsDec : ∀ els : List GoValue, (∀ e ∈ els, e ∈ elems) →
        ∀ cur2 : List GoValue,
        unmarshalRows (.strct fs) isPtrElem fields
            ((fields.filter (fun fi => incl fi.name)).map (fun fi => fi.name))
            (els.map (fun e =>
              (encodePairs incl fs (structFieldsOf (stripElem isPtrElem e)) 0).map
                (fun pc => pc.2))) cur2 =
          (cur2 ++ els.map (fun e =>
            if isPtrElem then
              GoValue.ptr (some (rebuildElem incl fs (stripElem isPtrElem e)))
            else rebuildElem incl fs (stripElem isPtrElem e)), none) := by
      intro els
      induction els with
      | nil =>
        intro _ cur2
        simp [unmarshalRows]
      | cons e els ih =>
        intro hmem cur2
        have heElem : e ∈ elems := hmem e (List.mem_cons_self e els)
        obtain ⟨ws, hws, htyp⟩ := hstrip e heElem
        obtain ⟨hA1, hA2⟩ := encodeRow_eq incl fs 0 fields hc hsup fs ws ws htyp rfl rfl
        have happly : applyCells (.strct fs) fields
            (((fields.filter (fun fi => incl fi.name)).map (fun fi => fi.name)).zip
              ((encodePairs incl fs (structFieldsOf (stripElem isPtrElem e)) 0).map
                (fun pc => pc.2)))
            (zeroValue (.strct fs)) =
            .ok (rebuildElem incl fs (stripElem isPtrElem e)) := by
          rw [hws]
          rw [applyCells_eq_applyWrites (.strct fs) fields
            (fields.filter (fun fi => incl fi.name)) _ _ hlookup]
          rw [show structFieldsOf (GoValue.strct ws) = ws from rfl]
          rw [hA1, zip_proj_self]
          exact decodeWrites_eq incl fs 0 fs [] ws rfl rfl htyp hsup
        simp only [List.map_cons, unmarshalRows, happly]
        rw [ih (fun x hx => hmem x (List.mem_cons_of_mem e hx))]
        simp [List.append_assoc]
  refine ⟨?_, fun cur2 => hrowsDec elems (fun x hx => hx) cur2, ?_⟩
  · simp only [marshalSliceCore, hc, hinc, hIL, hrows]
  · intro target cur
    simp only [unmarshalSliceArm, hc]
    rw [hrowsDec elems (fun x hx => hx) cur]

/-! ### Claim C1 -/

/-- C1 counterexample: `decode(encode(x))` does not reproduce `x`
field-for-field with the omit-if-empty elision as the only exception.
(1) With two leaf fields sharing the column name "a" (neither marked
omit-if-empty), encoding x = {A:"x", B:"y"} succeeds but decoding loses
field A: the last same-named field wins the decoder's name map, so both
cells write field B and A reverts to "".  (2) A nil pointer-embedded
sub-record whose column "id" is always included comes back allocated (with
the zero id), not nil. -/
theorem C1_counterexample :
    (Marshal (.slice (.strct (.cons "A" "a" false .str (.cons "B" "a" false .str .nil))))
        (.slice [.strct [.str "x", .str "y"]]) = .ok [["a", "a"], ["x", "y"]] ∧
      Unmarshal [["a", "a"], ["x", "y"]]
          (.ptr (.slice (.strct (.cons "A" "a" false .str (.cons "B" "a" false .str .nil)))))
          (.ptr (some (.slice []))) =
        (.ptr (some (.slice [.strct [.str "", .str "y"]])), none) ∧
      GoValue.strct [.str "", .str "y"] ≠ .strct [.str "x", .str "y"]) ∧
    (Marshal (.strct (.cons "Meta" "" true (.ptr (.strct (.cons "Id" "id" false .int .nil)))
          (.cons "X" "x" false .str .nil)))
        (.strct [.ptr none, .str "hi"]) = .ok [["id", "x"], ["0", "hi"]] ∧
      Unmarshal [["id", "x"], ["0", "hi"]]
          (.ptr (.strct (.cons "Meta" "" true (.ptr (.strct (.cons "Id" "id" false .int .nil)))
            (.cons "X" "x" false .str .nil))))
          (.ptr (some (.strct [.ptr none, .str ""]))) =
        (.ptr (some (.strct [.ptr (some (.strct [.int 0])), .str "hi"])), none) ∧
      GoValue.strct [.ptr (some (.strct [.int 0])), .str "hi"] ≠
        .strct [.ptr none, .str "hi"]) := by
  refine ⟨⟨rfl, rfl, ?_⟩, rfl, rfl, ?_⟩
  · intro h
    injection h with h1
    injection h1 with h2 _
    injection h2 with h3
    exact absurd h3 (by decide)
  · intro h
    injection h with h1
    injection h1 with h2 _
    injection h2 with h3
    exact Option.noConfusion h3

/-- C1 (amended): for every collection of a supported shape whose leaf
fields use only supported kinds and whose collected column names are
pairwise distinct (and, for a slice of struct pointers, with no nil
elements), Unmarshal applied to the document produced by Marshal(x)
reproduces x up to the round-trip normal form `rebuildElem`: an included
leaf keeps its value, a leaf whose column was elided (omit-if-empty and
empty in every record) reverts to its zero value, and a pointer-embedded
sub-record comes back allocated exactly when at least one of its leaf
columns was emitted. -/
theorem C1_roundtrip_amended :
    ∀ (fs : GoFields) (fields : List FieldInfo),
      collectFields fs = some fields →
      leavesSupported fs = true →
      (fields.map (fun fi => fi.name)).Nodup →
      (∀ elems : List GoValue, (∀ e ∈ elems, hasType e (.strct fs) = true) →
        ∃ recs, Marshal (.slice (.strct fs)) (.slice elems) = .ok recs ∧
          ∀ cur : List GoValue,
            Unmarshal recs (.ptr (.slice (.strct fs))) (.ptr (some (.slice cur))) =
              (.ptr (some (.slice (cur ++ elems.map
                (rebuildElem (inclName (.strct fs) false elems fields) fs)))),
                none)) ∧
      (∀ elems : List GoValue,
        (∀ e ∈ elems, ∃ ws, e = .ptr (some (.strct ws)) ∧
          hasTypeFields ws fs = true) →
        ∃ recs, Marshal (.slice (.ptr (.strct fs))) (.slice elems) = .ok recs ∧
          ∀ cur : List GoValue,
            Unmarshal recs (.ptr (.slice (.ptr (.strct fs))))
                (.ptr (some (.slice cur))) =
              (.ptr (some (.slice (cur ++ elems.map (fun e =>
                GoValue.ptr (some (rebuildElem
                  (inclName (.strct fs) true elems fields) fs
                  (stripElem true e))))))), none)) ∧
      (∀ ws : List GoValue, hasTypeFields ws fs = true →
        ∃ recs, Marshal (.strct fs) (.strct ws) = .ok recs ∧
          ∀ ws0 : List GoValue,
            Unmarshal recs (.ptr (.strct fs)) (.ptr (some (.strct ws0))) =
              (.ptr (some (rebuildElem
                (inclName (.strct fs) false [.strct ws] fields) fs (.strct ws))),
                none)) ∧
      (∀ ws : List GoValue, hasTypeFields ws fs = true →
        ∃ recs, Marshal (.ptr (.strct fs)) (.ptr (some (.strct ws))) = .ok recs ∧
          ∀ ws0 : List GoValue,
            Unmarshal recs (.ptr (.strct fs)) (.ptr (some (.strct ws0))) =
              (.ptr (some (rebuildElem
                (inclName (.strct fs) false [.strct ws] fields) fs (.strct ws))),
                none)) := by
  intro fs fields hc hsup hnd
  have single : ∀ ws : List GoValue, hasTypeFields ws fs = true →
      marshalSliceCore (.strct fs) false [.strct ws] =
        .ok (((fields.filter (fun fi =>
            inclName (.strct fs) false [.strct ws] fields fi.name)).map
            (fun fi => fi.name)) ::
          [GoValue.strct ws].map (fun e =>
            (encodePairs (inclName (.strct fs) false [.strct ws] fields) fs
              (structFieldsOf (stripElem false e)) 0).map (fun pc => pc.2))) ∧
      ∀ ws0 : List GoValue,
        Unmarshal (((fields.filter (fun fi =>
              inclName (.strct fs) false [.strct ws] fields fi.name)).map
              (fun fi => fi.name)) ::
            [GoValue.strct ws].map (fun e =>
              (encodePairs (inclName (.strct fs) false [.strct ws] fields) fs
                (structFieldsOf (stripElem false e)) 0).map (fun pc => pc.2)))
            (.ptr (.strct fs)) (.ptr (some (.strct ws0))) =
          (.ptr (some (rebuildElem
            (inclName (.strct fs) false [.strct ws] fields) fs (.strct ws))),
            none) := by
    intro ws hws
    have hincl := fun fi hfi =>
      inclName_eq_fieldIncluded (.strct fs) false [GoValue.strct ws] fields fi hnd hfi
    have hcore := marshal_unmarshal_core fs fields false [.strct ws]
      (inclName (.strct fs) false [.strct ws] fields) hc hsup hnd hincl
      (by
        intro e he
        rw [List.mem_singleton] at he
        subst he
        rw [if_neg Bool.false_ne_true]
        exact hws)
      (fun e _ hft => absurd hft Bool.false_ne_true)
    refine ⟨hcore.1, ?_⟩
    intro ws0
    have hrows1 := hcore.2.1 []
    simp only [Unmarshal, hc]
    rw [hrows1]
    rfl
  refine ⟨?_, ?_, ?_, ?_⟩
  · intro elems helems
    have hincl := fun fi hfi =>
      inclName_eq_fieldIncluded (.strct fs) false elems fields fi hnd hfi
    have hcore := marshal_unmarshal_core fs fields false elems
      (inclName (.strct fs) false elems fields) hc hsup hnd hincl
      (by
        intro e he
        rw [if_neg Bool.false_ne_true]
        exact helems e he)
      (fun e _ hft => absurd hft Bool.false_ne_true)
    exact ⟨_, hcore.1, fun cur => hcore.2.2 (.ptr (some (.slice cur))) cur⟩
  · intro elems hshape
    have hincl := fun fi hfi =>
      inclName_eq_fieldIncluded (.strct fs) true elems fields fi hnd hfi
    have hcore := marshal_unmarshal_core fs fields true elems
      (inclName (.strct fs) true elems fields) hc hsup hnd hincl
      (by
        intro e he
        obtain ⟨ws, rfl, hty⟩ := hshape e he
        rw [if_pos rfl]
        exact hty)
      (by
        intro e he _ heq
        obtain ⟨ws, rfl, _⟩ := hshape e he
        injection heq with h1
        exact Option.noConfusion h1)
    exact ⟨_, hcore.1, fun cur => hcore.2.2 (.ptr (some (.slice cur))) cur⟩
  · intro ws hws
    exact ⟨_, (single ws hws).1, (single ws hws).2⟩
  · intro ws hws
    exact ⟨_, (single ws hws).1, (single ws hws).2⟩

theorem C1_witness :
    Marshal (.slice (.strct (.cons "A" "a" false .str (.cons "N" "n" false .int .nil))))
        (.slice [.strct [.str "x", .int 5]]) = .ok [["a", "n"], ["x", "5"]] ∧
    Unmarshal [["a", "n"], ["x", "5"]]
        (.ptr (.slice (.strct (.cons "A" "a" false .str (.cons "N" "n" false .int .nil)))))
        (.ptr (some (.slice []))) =
      (.ptr (some (.slice [.strct [.str "x", .int 5]])), none) := by
  obtain ⟨recs, h1, h2⟩ :=
    (C1_roundtrip_amended (.cons "A" "a" false .str (.cons "N" "n" false .int .nil))
      [⟨"a", [0], false⟩, ⟨"n", [1], false⟩] rfl rfl (by decide)).1
      [.strct [.str "x", .int 5]]
      (by
        intro e he
        rw [List.mem_singleton] at he
        subst he
        rfl)
  have hrecs : recs = [["a", "n"], ["x", "5"]] := by
    have h1' := h1
    rw [show Marshal (.slice (.strct (.cons "A" "a" false .str
        (.cons "N" "n" false .int .nil)))) (.slice [.strct [.str "x", .int 5]]) =
      Except.ok [["a", "n"], ["x", "5"]] from rfl] at h1'
    injection h1' with h0
    exact h0.symm
  subst hrecs
  refine ⟨h1, ?_⟩
  have h3 := h2 []
  rw [h3]
  rfl

end Lancet
